import Mathlib

/-!
Verification development for the `given` dependency-update tool.

The Rust source is shallowly embedded: strings become `List Char` (Rust
`str` comparison is bytewise over UTF-8, which coincides with
codepoint-lexicographic order, i.e. lexicographic order on the character
list), `u32` becomes `Nat` with an explicit `< 2^32` bound enforced at the
parsing boundary, fallible operations return `Option`, and a Rust panic is
modelled as `Option.none`.
-/

/-- Rust `String` / `str`, modelled as its list of characters. -/
abbrev Str := List Char

/-- Convenience conversion from a Lean string literal to the model type. -/
def str (s : String) : Str := s.data

/-- Bytewise (= codepoint-lexicographic) comparison of two Rust strings,
mirroring `impl Ord for String`. -/
def strCmp : Str → Str → Ordering
  | [], [] => .eq
  | [], _ :: _ => .lt
  | _ :: _, [] => .gt
  | a :: as, b :: bs =>
    match compare a.toNat b.toNat with
    | .eq => strCmp as bs
    | o => o

/-- `enum PreRelease` from `src/model/version.rs`. -/
inductive PreRelease : Type where
  | RC (n : Nat)
  | M (n : Nat)
  | Other (s : Str)
deriving DecidableEq

/-- `enum Version` from `src/model/version.rs`.  The numeric fields are
`u32` in Rust; parsing (`parseU32`) only ever produces values `< 2^32`. -/
inductive Version : Type where
  | SemVer (major minor patch : Nat) (pre_release : Option PreRelease)
  | Other (s : Str)
deriving DecidableEq

/-- `impl Ord for PreRelease` (`src/model/version.rs` lines 51-64),
match arms in source order. -/
def PreRelease.cmp : PreRelease → PreRelease → Ordering
  | .RC v1, .RC v2 => compare v1 v2
  | .M v1, .M v2 => compare v1 v2
  | .RC _, _ => .gt
  | _, .RC _ => .lt
  | .M _, _ => .gt
  | _, .M _ => .lt
  | .Other s1, .Other s2 => strCmp s1 s2

/-- `impl Ord for Version` (`src/model/version.rs` lines 165-199).
The Rust tuple comparison `(m1, n1, p1).cmp(&(m2, n2, p2))` is the
`Ordering.then` chain. -/
def Version.cmp : Version → Version → Ordering
  | .SemVer m1 n1 p1 pr1, .SemVer m2 n2 p2 pr2 =>
    match (compare m1 m2).then ((compare n1 n2).then (compare p1 p2)) with
    | .eq =>
      match pr1, pr2 with
      | some a, some b => PreRelease.cmp a b
      | some _, none => .lt
      | none, some _ => .gt
      | none, none => .eq
    | o => o
  | .SemVer _ _ _ _, .Other _ => .lt
  | .Other _, .SemVer _ _ _ _ => .gt
  | .Other v1, .Other v2 => strCmp v1 v2

/-- Rust `a < b` on `PreRelease`. -/
def PreRelease.lt (a b : PreRelease) : Prop := PreRelease.cmp a b = .lt

/-- Rust `a < b` on `Version`. -/
def Version.lt (a b : Version) : Prop := Version.cmp a b = .lt

/-- Rust `a <= b` on `Version`. -/
def Version.le (a b : Version) : Prop := Version.cmp a b ≠ .gt

instance : DecidableEq Ordering := fun a b => by
  cases a <;> cases b <;> first | exact isTrue rfl | exact isFalse (by simp)

instance (a b : PreRelease) : Decidable (PreRelease.lt a b) := by
  unfold PreRelease.lt; infer_instance

instance (a b : Version) : Decidable (Version.lt a b) := by
  unfold Version.lt; infer_instance

instance (a b : Version) : Decidable (Version.le a b) := by
  unfold Version.le; infer_instance

/-- Rust `u32::from_str`: optional leading `'+'`, then one or more decimal
digits, value at most `u32::MAX`; anything else is an error (`none`). -/
def parseU32 (s : Str) : Option Nat :=
  let digits := match s with
    | '+' :: r => r
    | _ => s
  if !digits.isEmpty && digits.all Char.isDigit then
    let n := digits.foldl (fun acc c => 10 * acc + (c.toNat - 48)) 0
    if n < 4294967296 then some n else none
  else none

/-- First occurrence of `sep` in `s`: `some (before, after)` when found. -/
def splitFirst (sep : Char) : Str → Option (Str × Str)
  | [] => none
  | c :: r =>
    if c = sep then some ([], r)
    else (splitFirst sep r).map (fun p => (c :: p.1, p.2))

/-- Rust `str::splitn(n, sep)` (for `n ≥ 1`): at most `n` pieces, the last
piece keeping any remaining separators. -/
def splitn : Nat → Char → Str → List Str
  | 0, _, _ => []
  | 1, _, s => [s]
  | n + 2, sep, s =>
    match splitFirst sep s with
    | none => [s]
    | some (a, b) => a :: splitn (n + 1) sep b

/-- `Version::parse_pre_release` (`src/model/version.rs` lines 154-162):
`strip_prefix("RC")` / `strip_prefix('M')` with `parse().unwrap_or(0)`. -/
def Version.parse_pre_release : Str → PreRelease
  | 'R' :: 'C' :: num => .RC ((parseU32 num).getD 0)
  | 'M' :: num => .M ((parseU32 num).getD 0)
  | s => .Other s

/-- `Version::parse_semver` (`src/model/version.rs` lines 124-152). -/
def Version.parse_semver (value : Str) : Option (Nat × Nat × Nat × Option PreRelease) :=
  match splitn 3 '.' value with
  | [p0, p1] =>
    match parseU32 p0 with
    | none => none
    | some major =>
      match splitn 2 '-' p1 with
      | [m0] =>
        match parseU32 m0 with
        | none => none
        | some minor => some (major, minor, 0, none)
      | [m0, pre] =>
        match parseU32 m0 with
        | none => none
        | some minor => some (major, minor, 0, some (Version.parse_pre_release pre))
      | _ => none
  | [p0, p1, p2] =>
    match parseU32 p0 with
    | none => none
    | some major =>
      match parseU32 p1 with
      | none => none
      | some minor =>
        match splitn 2 '-' p2 with
        | [q0] =>
          match parseU32 q0 with
          | none => none
          | some patch => some (major, minor, patch, none)
        | [q0, pre] =>
          match parseU32 q0 with
          | none => none
          | some patch => some (major, minor, patch, some (Version.parse_pre_release pre))
        | _ => none
  | _ => none

/-- `Version::new` (`src/model/version.rs` lines 73-84). -/
def Version.new (value : Str) : Version :=
  match Version.parse_semver value with
  | some (major, minor, patch, pre) => .SemVer major minor patch pre
  | none => .Other value

/-- `Version::major` accessor. -/
def Version.major : Version → Option Nat
  | .SemVer m _ _ _ => some m
  | .Other _ => none

/-- `Version::minor` accessor. -/
def Version.minor : Version → Option Nat
  | .SemVer _ n _ _ => some n
  | .Other _ => none

/-- `Version::patch` accessor. -/
def Version.patch : Version → Option Nat
  | .SemVer _ _ p _ => some p
  | .Other _ => none

/-- `Version::pre_release` accessor. -/
def Version.pre_release : Version → Option PreRelease
  | .SemVer _ _ _ pr => pr
  | .Other _ => none

/-- `matches!(v, Version::SemVer { .. })`. -/
def Version.isSemVer : Version → Bool
  | .SemVer _ _ _ _ => true
  | .Other _ => false

example : Version.new (str "1.0.0") = .SemVer 1 0 0 none := by decide
example : Version.new (str "2.0-RC4") = .SemVer 2 0 0 (some (.RC 4)) := by decide
example : Version.new (str "1.5.5-M1") = .SemVer 1 5 5 (some (.M 1)) := by decide
example : Version.new (str "4.5.5.5") = .Other (str "4.5.5.5") := by decide
example : Version.new (str "i-hate-semver") = .Other (str "i-hate-semver") := by decide
example : Version.new (str "1.1.1-alpha.5") = .SemVer 1 1 1 (some (.Other (str "alpha.5"))) := by
  decide

/-! ### Order-theoretic facts about the embedded comparators -/

theorem charToNat_inj {a b : Char} (h : a.toNat = b.toNat) : a = b :=
  Char.ext (UInt32.toNat.inj h)

theorem strCmp_swap : ∀ a b : Str, strCmp b a = (strCmp a b).swap
  | [], [] => rfl
  | [], _ :: _ => rfl
  | _ :: _, [] => rfl
  | a :: as, b :: bs => by
    simp only [strCmp]
    rw [← Nat.compare_swap]
    cases h : compare a.toNat b.toNat <;>
      simp [Ordering.swap, strCmp_swap as bs]

theorem strCmp_eq_iff : ∀ a b : Str, strCmp a b = .eq ↔ a = b
  | [], [] => by simp [strCmp]
  | [], _ :: _ => by simp [strCmp]
  | _ :: _, [] => by simp [strCmp]
  | a :: as, b :: bs => by
    simp only [strCmp]
    cases h : compare a.toNat b.toNat with
    | eq =>
      have hab : a = b := charToNat_inj (Nat.compare_eq_eq.mp h)
      simp [hab, strCmp_eq_iff as bs]
    | lt =>
      have : a ≠ b := fun hc => by simp [hc, Nat.compare_eq_eq.mpr rfl] at h
      simp [this]
    | gt =>
      have : a ≠ b := fun hc => by simp [hc, Nat.compare_eq_eq.mpr rfl] at h
      simp [this]

theorem strCmp_lt_trans : ∀ a b c : Str,
    strCmp a b = .lt → strCmp b c = .lt → strCmp a c = .lt := by
  intro a
  induction a with
  | nil =>
    intro b c h1 h2
    cases b with
    | nil => simp [strCmp] at h1
    | cons y ys =>
      cases c with
      | nil => simp [strCmp] at h2
      | cons z zs => simp [strCmp]
  | cons x xs ih =>
    intro b c h1 h2
    cases b with
    | nil => simp [strCmp] at h1
    | cons y ys =>
      cases c with
      | nil => simp [strCmp] at h2
      | cons z zs =>
        simp only [strCmp] at h1 h2 ⊢
        cases hxy : compare x.toNat y.toNat <;> rw [hxy] at h1 <;>
          cases hyz : compare y.toNat z.toNat <;> rw [hyz] at h2 <;>
          simp_all
        · -- x < y, y < z
          rw [Nat.compare_eq_lt.mpr
            (Nat.lt_trans (Nat.compare_eq_lt.mp hxy) (Nat.compare_eq_lt.mp hyz))]
        · -- x < y, y = z
          rw [← Nat.compare_eq_eq.mp hyz, hxy]
        · -- x = y, y < z
          rw [Nat.compare_eq_eq.mp hxy, hyz]
        · -- x = y, y = z
          rw [Nat.compare_eq_eq.mp hxy, hyz]
          exact ih ys zs h1 h2

theorem preCmp_swap : ∀ a b : PreRelease, PreRelease.cmp b a = (PreRelease.cmp a b).swap
  | .RC v1, .RC v2 => (Nat.compare_swap v1 v2).symm
  | .M v1, .M v2 => (Nat.compare_swap v1 v2).symm
  | .RC _, .M _ => rfl
  | .RC _, .Other _ => rfl
  | .M _, .RC _ => rfl
  | .M _, .Other _ => rfl
  | .Other _, .RC _ => rfl
  | .Other _, .M _ => rfl
  | .Other s1, .Other s2 => strCmp_swap s1 s2

theorem preCmp_eq_iff : ∀ a b : PreRelease, PreRelease.cmp a b = .eq ↔ a = b
  | .RC v1, .RC v2 => by
    have : PreRelease.cmp (.RC v1) (.RC v2) = compare v1 v2 := rfl
    rw [this, Nat.compare_eq_eq]; simp
  | .M v1, .M v2 => by
    have : PreRelease.cmp (.M v1) (.M v2) = compare v1 v2 := rfl
    rw [this, Nat.compare_eq_eq]; simp
  | .RC _, .M _ => by simp [show PreRelease.cmp (.RC _) (.M _) = .gt from rfl]
  | .RC _, .Other _ => by simp [show PreRelease.cmp (.RC _) (.Other _) = .gt from rfl]
  | .M _, .RC _ => by simp [show PreRelease.cmp (.M _) (.RC _) = .lt from rfl]
  | .M _, .Other _ => by simp [show PreRelease.cmp (.M _) (.Other _) = .gt from rfl]
  | .Other _, .RC _ => by simp [show PreRelease.cmp (.Other _) (.RC _) = .lt from rfl]
  | .Other _, .M _ => by simp [show PreRelease.cmp (.Other _) (.M _) = .lt from rfl]
  | .Other s1, .Other s2 => by
    have : PreRelease.cmp (.Other s1) (.Other s2) = strCmp s1 s2 := rfl
    rw [this, strCmp_eq_iff]; simp

theorem preCmp_lt_trans : ∀ a b c : PreRelease,
    PreRelease.cmp a b = .lt → PreRelease.cmp b c = .lt → PreRelease.cmp a c = .lt
  | .RC v1, .RC v2, .RC v3, h1, h2 =>
    Nat.compare_eq_lt.mpr
      (Nat.lt_trans (Nat.compare_eq_lt.mp h1) (Nat.compare_eq_lt.mp h2))
  | .M v1, .M v2, .M v3, h1, h2 =>
    Nat.compare_eq_lt.mpr
      (Nat.lt_trans (Nat.compare_eq_lt.mp h1) (Nat.compare_eq_lt.mp h2))
  | .M _, .M _, .RC _, _, _ => rfl
  | .M _, .RC _, .RC _, _, _ => rfl
  | .Other _, .RC _, .RC _, _, _ => rfl
  | .Other _, .M _, .RC _, _, _ => rfl
  | .Other _, .M _, .M _, _, _ => rfl
  | .Other _, .Other _, .RC _, _, _ => rfl
  | .Other _, .Other _, .M _, _, _ => rfl
  | .Other s1, .Other s2, .Other s3, h1, h2 => strCmp_lt_trans s1 s2 s3 h1 h2
  | .RC _, .RC _, .M _, _, h2 => nomatch h2
  | .RC _, .RC _, .Other _, _, h2 => nomatch h2
  | .RC _, .M _, _, h1, _ => nomatch h1
  | .RC _, .Other _, _, h1, _ => nomatch h1
  | .M _, .RC _, .M _, _, h2 => nomatch h2
  | .M _, .RC _, .Other _, _, h2 => nomatch h2
  | .M _, .M _, .Other _, _, h2 => nomatch h2
  | .M _, .Other _, _, h1, _ => nomatch h1
  | .Other _, .RC _, .M _, _, h2 => nomatch h2
  | .Other _, .RC _, .Other _, _, h2 => nomatch h2
  | .Other _, .M _, .Other _, _, h2 => nomatch h2

theorem ordThenLt (x : Ordering) : Ordering.lt.then x = .lt := rfl

theorem ordThenGt (x : Ordering) : Ordering.gt.then x = .gt := rfl

theorem ordThenEq (x : Ordering) : Ordering.eq.then x = x := rfl

theorem then2_lt_iff (n1 n2 p1 p2 : Nat) :
    ((compare n1 n2).then (compare p1 p2)) = .lt ↔ (n1 < n2 ∨ (n1 = n2 ∧ p1 < p2)) := by
  rcases Nat.lt_trichotomy n1 n2 with h | h | h
  · rw [Nat.compare_eq_lt.mpr h, ordThenLt]; simp [h]
  · rw [Nat.compare_eq_eq.mpr h, ordThenEq]; subst h; simp [Nat.compare_eq_lt]
  · rw [Nat.compare_eq_gt.mpr h, ordThenGt]; simp <;> omega

theorem then2_eq_iff (n1 n2 p1 p2 : Nat) :
    ((compare n1 n2).then (compare p1 p2)) = .eq ↔ (n1 = n2 ∧ p1 = p2) := by
  rcases Nat.lt_trichotomy n1 n2 with h | h | h
  · rw [Nat.compare_eq_lt.mpr h, ordThenLt]; simp <;> omega
  · rw [Nat.compare_eq_eq.mpr h, ordThenEq]; subst h; simp [Nat.compare_eq_eq]
  · rw [Nat.compare_eq_gt.mpr h, ordThenGt]; simp <;> omega

theorem then3_lt_iff (m1 m2 n1 n2 p1 p2 : Nat) :
    ((compare m1 m2).then ((compare n1 n2).then (compare p1 p2))) = .lt
      ↔ (m1 < m2 ∨ (m1 = m2 ∧ (n1 < n2 ∨ (n1 = n2 ∧ p1 < p2)))) := by
  rcases Nat.lt_trichotomy m1 m2 with h | h | h
  · rw [Nat.compare_eq_lt.mpr h, ordThenLt]; simp [h]
  · rw [Nat.compare_eq_eq.mpr h, ordThenEq, then2_lt_iff]; subst h; simp
  · rw [Nat.compare_eq_gt.mpr h, ordThenGt]; simp <;> omega

theorem then3_eq_iff (m1 m2 n1 n2 p1 p2 : Nat) :
    ((compare m1 m2).then ((compare n1 n2).then (compare p1 p2))) = .eq
      ↔ (m1 = m2 ∧ n1 = n2 ∧ p1 = p2) := by
  rcases Nat.lt_trichotomy m1 m2 with h | h | h
  · rw [Nat.compare_eq_lt.mpr h, ordThenLt]; simp <;> omega
  · rw [Nat.compare_eq_eq.mpr h, ordThenEq, then2_eq_iff]; subst h; simp
  · rw [Nat.compare_eq_gt.mpr h, ordThenGt]; simp <;> omega

theorem ordThenSwap (a b : Ordering) : (a.then b).swap = a.swap.then b.swap := by
  cases a <;> rfl

theorem verCmp_swap : ∀ a b : Version, Version.cmp b a = (Version.cmp a b).swap
  | .SemVer m1 n1 p1 pr1, .SemVer m2 n2 p2 pr2 => by
    have hbase : (compare m2 m1).then ((compare n2 n1).then (compare p2 p1))
        = ((compare m1 m2).then ((compare n1 n2).then (compare p1 p2))).swap := by
      rw [ordThenSwap, ordThenSwap, Nat.compare_swap, Nat.compare_swap, Nat.compare_swap]
    simp only [Version.cmp]
    rw [hbase]
    cases hb : (compare m1 m2).then ((compare n1 n2).then (compare p1 p2))
    · rfl
    · cases pr1 <;> cases pr2 <;> simp [Ordering.swap]
      exact preCmp_swap _ _
    · rfl
  | .SemVer _ _ _ _, .Other _ => rfl
  | .Other _, .SemVer _ _ _ _ => rfl
  | .Other s1, .Other s2 => strCmp_swap s1 s2

theorem verCmp_eq_iff : ∀ a b : Version, Version.cmp a b = .eq ↔ a = b
  | .SemVer m1 n1 p1 pr1, .SemVer m2 n2 p2 pr2 => by
    simp only [Version.cmp]
    cases hb : (compare m1 m2).then ((compare n1 n2).then (compare p1 p2)) with
    | lt =>
      simp only [Version.SemVer.injEq]
      constructor
      · intro hc; exact absurd hc (by simp)
      · rintro ⟨e1, e2, e3, _⟩
        rw [(then3_eq_iff m1 m2 n1 n2 p1 p2).mpr ⟨e1, e2, e3⟩] at hb
        exact nomatch hb
    | eq =>
      obtain ⟨e1, e2, e3⟩ := (then3_eq_iff m1 m2 n1 n2 p1 p2).mp hb
      subst e1; subst e2; subst e3
      cases pr1 <;> cases pr2 <;> simp [preCmp_eq_iff]
    | gt =>
      simp only [Version.SemVer.injEq]
      constructor
      · intro hc; exact absurd hc (by simp)
      · rintro ⟨e1, e2, e3, _⟩
        rw [(then3_eq_iff m1 m2 n1 n2 p1 p2).mpr ⟨e1, e2, e3⟩] at hb
        exact nomatch hb
  | .SemVer _ _ _ _, .Other _ => by simp [Version.cmp]
  | .Other _, .SemVer _ _ _ _ => by simp [Version.cmp]
  | .Other s1, .Other s2 => by simp [Version.cmp, strCmp_eq_iff]

/-- Tie-break on the pre-release fields when `(major, minor, patch)` agree:
a version with a pre-release is less than one without, otherwise the
pre-releases are compared. -/
def preTieLt : Option PreRelease → Option PreRelease → Prop
  | some a, some b => PreRelease.lt a b
  | some _, none => True
  | none, _ => False

instance : (a b : Option PreRelease) → Decidable (preTieLt a b)
  | some a, some b => inferInstanceAs (Decidable (PreRelease.lt a b))
  | some _, none => .isTrue trivial
  | none, some _ => .isFalse fun h => h
  | none, none => .isFalse fun h => h

theorem preTieLt_trans : ∀ x y z : Option PreRelease,
    preTieLt x y → preTieLt y z → preTieLt x z
  | some a, some b, some c, h1, h2 => preCmp_lt_trans a b c h1 h2
  | some _, some _, none, _, _ => trivial
  | some _, none, _, _, h2 => h2.elim
  | none, _, _, h1, _ => h1.elim

theorem semver_lt_iff (m1 n1 p1 : Nat) (pr1 : Option PreRelease)
    (m2 n2 p2 : Nat) (pr2 : Option PreRelease) :
    Version.lt (.SemVer m1 n1 p1 pr1) (.SemVer m2 n2 p2 pr2)
      ↔ (m1 < m2 ∨ (m1 = m2 ∧ (n1 < n2 ∨ (n1 = n2 ∧
          (p1 < p2 ∨ (p1 = p2 ∧ preTieLt pr1 pr2)))))) := by
  unfold Version.lt
  simp only [Version.cmp]
  cases hb : (compare m1 m2).then ((compare n1 n2).then (compare p1 p2)) with
  | lt =>
    have hlt := (then3_lt_iff m1 m2 n1 n2 p1 p2).mp hb
    constructor
    · intro _
      rcases hlt with h | ⟨e1, h | ⟨e2, h⟩⟩
      · exact Or.inl h
      · exact Or.inr ⟨e1, Or.inl h⟩
      · exact Or.inr ⟨e1, Or.inr ⟨e2, Or.inl h⟩⟩
    · intro _; rfl
  | eq =>
    obtain ⟨e1, e2, e3⟩ := (then3_eq_iff m1 m2 n1 n2 p1 p2).mp hb
    subst e1; subst e2; subst e3
    cases pr1 <;> cases pr2 <;> simp [preTieLt, PreRelease.lt]
  | gt =>
    have h1 : ¬ (m1 < m2 ∨ (m1 = m2 ∧ (n1 < n2 ∨ (n1 = n2 ∧ p1 < p2)))) := by
      intro hc
      rw [(then3_lt_iff m1 m2 n1 n2 p1 p2).mpr hc] at hb
      exact nomatch hb
    have h2 : ¬ (m1 = m2 ∧ n1 = n2 ∧ p1 = p2) := by
      intro hc
      rw [(then3_eq_iff m1 m2 n1 n2 p1 p2).mpr hc] at hb
      exact nomatch hb
    constructor
    · intro hc; exact absurd hc (by simp)
    · rintro (h | ⟨e1, h | ⟨e2, h | ⟨e3, _⟩⟩⟩)
      · exact absurd (Or.inl h) h1
      · exact absurd (Or.inr ⟨e1, Or.inl h⟩) h1
      · exact absurd (Or.inr ⟨e1, Or.inr ⟨e2, h⟩⟩) h1
      · exact absurd ⟨e1, e2, e3⟩ h2

theorem verLt_asymm (a b : Version) : Version.lt a b → ¬ Version.lt b a := by
  intro h hc
  unfold Version.lt at h hc
  rw [verCmp_swap a b, h] at hc
  exact nomatch hc

theorem verLt_trans : ∀ a b c : Version,
    Version.lt a b → Version.lt b c → Version.lt a c := by
  intro a b c h1 h2
  cases a with
  | Other s1 =>
    cases b with
    | SemVer m n p pr => exact nomatch h1
    | Other s2 =>
      cases c with
      | SemVer m n p pr => exact nomatch h2
      | Other s3 => exact strCmp_lt_trans s1 s2 s3 h1 h2
  | SemVer m1 n1 p1 pr1 =>
    cases c with
    | Other s3 =>
      cases b with
      | SemVer m n p pr => exact rfl
      | Other s => exact rfl
    | SemVer m3 n3 p3 pr3 =>
      cases b with
      | Other s2 => exact nomatch h2
      | SemVer m2 n2 p2 pr2 =>
        rw [semver_lt_iff] at h1 h2 ⊢
        rcases h1 with h1 | ⟨e1, h1 | ⟨e2, h1 | ⟨e3, hp1⟩⟩⟩ <;>
          rcases h2 with h2 | ⟨f1, h2 | ⟨f2, h2 | ⟨f3, hp2⟩⟩⟩ <;>
          first
          | exact Or.inl (by omega)
          | exact Or.inr ⟨by omega, Or.inl (by omega)⟩
          | exact Or.inr ⟨by omega, Or.inr ⟨by omega, Or.inl (by omega)⟩⟩
          | exact Or.inr ⟨by omega, Or.inr ⟨by omega, Or.inr
              ⟨by omega, preTieLt_trans pr1 pr2 pr3 hp1 hp2⟩⟩⟩

theorem verLt_trichotomy (a b : Version) :
    Version.lt a b ∨ a = b ∨ Version.lt b a := by
  cases h : Version.cmp a b
  · exact Or.inl h
  · exact Or.inr (Or.inl ((verCmp_eq_iff a b).mp h))
  · refine Or.inr (Or.inr ?_)
    unfold Version.lt
    rw [verCmp_swap a b, h]
    rfl

theorem verLe_iff (a b : Version) : Version.le a b ↔ (Version.lt a b ∨ a = b) := by
  unfold Version.le Version.lt
  cases h : Version.cmp a b
  · simp
  · simp [(verCmp_eq_iff a b).mp h]
  · simp only [ne_eq, not_true_eq_false, false_iff]
    rintro (hc | hab)
    · exact nomatch hc
    · have := (verCmp_eq_iff a b).mpr hab
      exact nomatch this.symm.trans h

theorem verLe_total (a b : Version) : Version.le a b ∨ Version.le b a := by
  cases h : Version.cmp a b
  · exact Or.inl (by unfold Version.le; rw [h]; simp)
  · exact Or.inl (by unfold Version.le; rw [h]; simp)
  · refine Or.inr ?_
    unfold Version.le
    rw [verCmp_swap a b, h]
    exact fun hc => nomatch hc

theorem verLe_trans (a b c : Version) :
    Version.le a b → Version.le b c → Version.le a c := by
  intro h1 h2
  rw [verLe_iff] at h1 h2 ⊢
  rcases h1 with h1 | rfl
  · rcases h2 with h2 | rfl
    · exact Or.inl (verLt_trans a b c h1 h2)
    · exact Or.inl h1
  · exact h2

instance : IsTotal Version Version.le := ⟨verLe_total⟩

instance : IsTrans Version Version.le := ⟨verLe_trans⟩

instance : DecidableRel Version.le := fun a b => inferInstance

theorem verLe_refl (a : Version) : Version.le a a := by
  unfold Version.le
  rw [(verCmp_eq_iff a a).mpr rfl]
  exact fun hc => nomatch hc

/-! ### The update-options engine (`src/model/update_options.rs`) -/

/-- `enum VersionType` from `src/model/update_options.rs`. -/
inductive VersionType : Type where
  | Major
  | Minor
  | Patch
  | PreRelease
deriving DecidableEq

/-- `struct UpdateOptions` from `src/model/update_options.rs`. -/
structure UpdateOptions : Type where
  major : Option Version
  minor : Option Version
  patch : Option Version
  pre_release : Option Version
deriving DecidableEq

/-- `UpdateOptions::is_empty`. -/
def UpdateOptions.isEmpty (u : UpdateOptions) : Bool :=
  u.major.isNone && u.minor.isNone && u.patch.isNone && u.pre_release.isNone

/-- Rust `a > b` on `Option<u32>` (derived `Ord`: `None` is below every
`Some`). -/
def optNatGt : Option Nat → Option Nat → Bool
  | some x, some y => decide (y < x)
  | some _, none => true
  | none, _ => false

/-- One iteration of the tier-assignment loop of
`UpdateOptions::get_options_semver` (`src/model/update_options.rs` lines
85-95): the first matching branch assigns `v` to its tier. -/
def stepTier (current : Version) (u : UpdateOptions) (v : Version) : UpdateOptions :=
  if optNatGt v.major current.major && v.pre_release.isNone then
    { u with major := some v }
  else if optNatGt v.minor current.minor && v.pre_release.isNone then
    { u with minor := some v }
  else if optNatGt v.patch current.patch && v.pre_release.isNone then
    { u with patch := some v }
  else if v.pre_release.isSome then
    { u with pre_release := some v }
  else u

/-- The filtered, ascending-sorted candidate list
(`get_options_semver` lines 75-79).  `List.insertionSort` is a stable
ascending sort and therefore extensionally equal to the stable sort used
by Rust. -/
def candidates (current : Version) (available : List Version) : List Version :=
  List.insertionSort Version.le
    (available.filter fun v => v.isSemVer && decide (Version.cmp v current = .gt))

/-- The tier-assignment pass (`get_options_semver` lines 81-95). -/
def tierPass (current : Version) (available : List Version) : UpdateOptions :=
  (candidates current available).foldl (stepTier current) ⟨none, none, none, none⟩

/-- The pre-release suppression step (`get_options_semver` lines 97-108):
clear `pre_release` when it is `<=` some populated stable tier. -/
def suppressPre (u : UpdateOptions) : UpdateOptions :=
  match u.pre_release with
  | some p =>
    if (u.major.toList ++ u.minor.toList ++ u.patch.toList).any
        (fun v => decide (Version.le p v)) then
      { u with pre_release := none }
    else u
  | none => u

/-- `UpdateOptions::get_options_semver` (`src/model/update_options.rs`
lines 74-115). -/
def UpdateOptions.get_options_semver (current : Version) (available : List Version) :
    Option UpdateOptions :=
  let opts := suppressPre (tierPass current available)
  if opts.isEmpty then none else some opts

/-- `UpdateOptions::new` (`src/model/update_options.rs` lines 57-62). -/
def UpdateOptions.new (current : Version) (available : List Version) :
    Option UpdateOptions :=
  match current with
  | .SemVer _ _ _ _ => UpdateOptions.get_options_semver current available
  | _ => UpdateOptions.get_options_semver (Version.new (str "0.0.0")) available

/-- Specification-side view of the loop body: the tier (if any) that the
first matching branch assigns candidate `v` to. -/
def tierOf (current v : Version) : Option VersionType :=
  if optNatGt v.major current.major && v.pre_release.isNone then some .Major
  else if optNatGt v.minor current.minor && v.pre_release.isNone then some .Minor
  else if optNatGt v.patch current.patch && v.pre_release.isNone then some .Patch
  else if v.pre_release.isSome then some .PreRelease
  else none

/-- Projection of an `UpdateOptions` record onto one tier slot. -/
def UpdateOptions.field (u : UpdateOptions) : VersionType → Option Version
  | .Major => u.major
  | .Minor => u.minor
  | .Patch => u.patch
  | .PreRelease => u.pre_release

theorem stepTier_field (current : Version) (u : UpdateOptions) (v : Version)
    (t : VersionType) :
    (stepTier current u v).field t
      = if tierOf current v = some t then some v else u.field t := by
  unfold stepTier tierOf
  split_ifs with h1 h2 h3 h4 <;> cases t <;>
    simp_all [UpdateOptions.field]

theorem foldl_stepTier_field (current : Version) :
    ∀ (l : List Version) (u : UpdateOptions) (t : VersionType),
      (l.foldl (stepTier current) u).field t
        = ((l.filter fun v => tierOf current v == some t).getLast?).or (u.field t) := by
  intro l
  induction l with
  | nil => intro u t; simp
  | cons a l ih =>
    intro u t
    rw [List.foldl_cons, ih]
    by_cases h : tierOf current a = some t
    · rw [List.filter_cons_of_pos (by simp [h]), stepTier_field, if_pos h]
      cases hfp : l.filter fun v => tierOf current v == some t with
      | nil => simp [hfp]
      | cons b bs =>
        rw [List.getLast?_cons_cons]
        cases hL : (b :: bs).getLast? with
        | none => exact absurd (List.getLast?_eq_none_iff.mp hL) (by simp)
        | some x => simp
    · rw [List.filter_cons_of_neg (by simp [h]), stepTier_field, if_neg h]

theorem pairwise_getLast?_le :
    ∀ {l : List Version}, List.Pairwise Version.le l →
      ∀ {v m : Version}, v ∈ l → l.getLast? = some m → Version.le v m := by
  intro l
  induction l with
  | nil => intro _ v m hv; cases hv
  | cons a l ih =>
    intro hs v m hv hm
    cases l with
    | nil =>
      rcases List.mem_singleton.mp hv with rfl
      rw [List.getLast?_singleton] at hm
      cases hm
      exact verLe_refl v
    | cons b bs =>
      rw [List.getLast?_cons_cons] at hm
      rcases List.mem_cons.mp hv with rfl | hv2
      · have hmem : m ∈ b :: bs := List.mem_of_getLast?_eq_some hm
        exact (List.pairwise_cons.mp hs).1 m hmem
      · exact ih (List.pairwise_cons.mp hs).2 hv2 hm

theorem verLt_not_le {v p : Version} (h : Version.lt v p) : ¬ Version.le p v := by
  intro hle
  apply hle
  rw [verCmp_swap v p, h]
  rfl

/-! ### Claim theorems: version ordering and the update-options engine -/

/-- Claim C1: the comparison on `Version` is a strict total order
(asymmetric, transitive, total); every `SemVer` compares strictly below
every `Other`; two `SemVer` values compare by `(major, minor, patch)`
lexicographically with the no-pre-release-is-greater tie-break; the
pre-release tiers order `RC` above `M` above `Other`, numerically within
`RC` and within `M` and lexicographically between `Other` values; and two
`Other` versions compare lexicographically by their raw strings. -/
theorem claim1_version_strict_total_order :
    (∀ a b : Version, Version.lt a b → ¬ Version.lt b a)
    ∧ (∀ a b c : Version, Version.lt a b → Version.lt b c → Version.lt a c)
    ∧ (∀ a b : Version, Version.lt a b ∨ a = b ∨ Version.lt b a)
    ∧ (∀ (m n p : Nat) (pr : Option PreRelease) (s : Str),
        Version.lt (.SemVer m n p pr) (.Other s))
    ∧ (∀ (m1 n1 p1 : Nat) (pr1 : Option PreRelease)
        (m2 n2 p2 : Nat) (pr2 : Option PreRelease),
        Version.lt (.SemVer m1 n1 p1 pr1) (.SemVer m2 n2 p2 pr2)
          ↔ (m1 < m2 ∨ (m1 = m2 ∧ (n1 < n2 ∨ (n1 = n2 ∧
              (p1 < p2 ∨ (p1 = p2 ∧ preTieLt pr1 pr2)))))))
    ∧ (∀ v1 v2 : Nat, PreRelease.lt (.RC v1) (.RC v2) ↔ v1 < v2)
    ∧ (∀ v1 v2 : Nat, PreRelease.lt (.M v1) (.M v2) ↔ v1 < v2)
    ∧ (∀ n m : Nat, PreRelease.lt (.M n) (.RC m))
    ∧ (∀ (s : Str) (n : Nat), PreRelease.lt (.Other s) (.M n))
    ∧ (∀ (s : Str) (n : Nat), PreRelease.lt (.Other s) (.RC n))
    ∧ (∀ s1 s2 : Str, PreRelease.lt (.Other s1) (.Other s2) ↔ strCmp s1 s2 = .lt)
    ∧ (∀ s1 s2 : Str, Version.lt (.Other s1) (.Other s2) ↔ strCmp s1 s2 = .lt) :=
  ⟨verLt_asymm, verLt_trans, verLt_trichotomy,
   fun _ _ _ _ _ => rfl, semver_lt_iff,
   fun _ _ => Nat.compare_eq_lt, fun _ _ => Nat.compare_eq_lt,
   fun _ _ => rfl, fun _ _ => rfl, fun _ _ => rfl,
   fun _ _ => Iff.rfl, fun _ _ => Iff.rfl⟩

/-- Witness for C1: transitivity applied at concrete parsed versions. -/
theorem claim1_witness :
    Version.lt (Version.new (str "1.2.3")) (Version.new (str "2.0.0")) :=
  claim1_version_strict_total_order.2.1 _ (Version.new (str "1.9.9")) _
    (by decide) (by decide)

/-- Claim C2: the tier-assignment pass filters the available list to
`SemVer` values strictly greater than the current version and sorts them
ascending; each candidate is assigned to at most one tier by the first
matching branch, later assignments overwrite earlier ones so each tier
ends with its highest qualifying candidate, a candidate qualifying for
major is never assigned lower, and the 1.2.3 example computes as stated. -/
theorem claim2_update_tier_assignment :
    (∀ (current : Version) (available : List Version) (t : VersionType),
        (tierPass current available).field t
          = ((candidates current available).filter
              fun v => tierOf current v == some t).getLast?)
    ∧ (∀ (current : Version) (available : List Version) (t : VersionType)
        (v m : Version),
        v ∈ candidates current available → tierOf current v = some t →
        (tierPass current available).field t = some m → Version.le v m)
    ∧ (∀ current v : Version,
        (optNatGt v.major current.major && v.pre_release.isNone) = true →
        tierOf current v = some .Major)
    ∧ UpdateOptions.new (Version.new (str "1.2.3"))
        [Version.new (str "1.2.1"), Version.new (str "1.2.3"),
         Version.new (str "1.2.4"), Version.new (str "2.0.0")]
        = some ⟨some (Version.new (str "2.0.0")), none,
                some (Version.new (str "1.2.4")), none⟩ := by
  have hfield : ∀ (current : Version) (available : List Version) (t : VersionType),
      (tierPass current available).field t
        = ((candidates current available).filter
            fun v => tierOf current v == some t).getLast? := by
    intro current available t
    have h0 : (⟨none, none, none, none⟩ : UpdateOptions).field t = none := by
      cases t <;> rfl
    unfold tierPass
    rw [foldl_stepTier_field, h0, Option.or_none]
  refine ⟨hfield, ?_, ?_, by decide⟩
  · intro current available t v m hv ht hm
    rw [hfield] at hm
    have hs : List.Pairwise Version.le (candidates current available) :=
      List.sorted_insertionSort Version.le _
    have hpw : List.Pairwise Version.le
        ((candidates current available).filter
          fun v => tierOf current v == some t) :=
      List.Pairwise.sublist (List.filter_sublist _) hs
    have hvf : v ∈ (candidates current available).filter
        fun v => tierOf current v == some t :=
      List.mem_filter.mpr ⟨hv, by simp [ht]⟩
    exact pairwise_getLast?_le hpw hvf hm
  · intro current v h
    unfold tierOf
    rw [if_pos h]

/-- Witness for C2: the highest-qualifying-candidate property applied at a
concrete input. -/
theorem claim2_witness :
    Version.le (Version.new (str "1.2.4")) (Version.new (str "1.2.4")) :=
  claim2_update_tier_assignment.2.1 (Version.new (str "1.2.3"))
    [Version.new (str "1.2.1"), Version.new (str "1.2.3"),
     Version.new (str "1.2.4"), Version.new (str "2.0.0")]
    .Patch (Version.new (str "1.2.4")) (Version.new (str "1.2.4"))
    (by decide) (by decide) (by decide)

theorem suppressPre_some {u : UpdateOptions} {p : Version}
    (hp : u.pre_release = some p) :
    suppressPre u
      = if (u.major.toList ++ u.minor.toList ++ u.patch.toList).any
            (fun v => decide (Version.le p v)) then
          { u with pre_release := none }
        else u := by
  unfold suppressPre
  rw [hp]

theorem suppressPre_none {u : UpdateOptions} (hp : u.pre_release = none) :
    suppressPre u = u := by
  unfold suppressPre
  rw [hp]

/-- Claim C3: after the tier-assignment pass, a populated `pre_release`
tier is cleared exactly when it is less-than-or-equal to some populated
stable tier (major, minor or patch), and kept exactly when it is strictly
greater than every populated stable tier; the stable tiers themselves are
never changed by this step; the two 1.2.3 examples compute as stated. -/
theorem claim3_pre_release_suppression :
    (∀ (current : Version) (available : List Version),
        UpdateOptions.get_options_semver current available
          = (if (suppressPre (tierPass current available)).isEmpty then none
             else some (suppressPre (tierPass current available))))
    ∧ (∀ u : UpdateOptions,
        (suppressPre u).major = u.major ∧ (suppressPre u).minor = u.minor
          ∧ (suppressPre u).patch = u.patch)
    ∧ (∀ (u : UpdateOptions) (p : Version), u.pre_release = some p →
        ((∃ v, v ∈ u.major.toList ++ u.minor.toList ++ u.patch.toList
            ∧ Version.le p v) → (suppressPre u).pre_release = none)
        ∧ ((∀ v, v ∈ u.major.toList ++ u.minor.toList ++ u.patch.toList →
            Version.lt v p) → (suppressPre u).pre_release = some p))
    ∧ UpdateOptions.new (Version.new (str "1.2.3"))
        [Version.new (str "3.0.0"), Version.new (str "3.1.0-RC1")]
        = some ⟨some (Version.new (str "3.0.0")), none, none,
                some (Version.new (str "3.1.0-RC1"))⟩
    ∧ UpdateOptions.new (Version.new (str "1.2.3"))
        [Version.new (str "3.0.0"), Version.new (str "2.9.0-RC1")]
        = some ⟨some (Version.new (str "3.0.0")), none, none, none⟩ := by
  refine ⟨fun _ _ => rfl, ?_, ?_, by decide, by decide⟩
  · intro u
    cases hp : u.pre_release with
    | none => rw [suppressPre_none hp]; exact ⟨rfl, rfl, rfl⟩
    | some p =>
      rw [suppressPre_some hp]
      split_ifs <;> exact ⟨rfl, rfl, rfl⟩
  · intro u p hp
    constructor
    · rintro ⟨v, hv, hle⟩
      rw [suppressPre_some hp,
        if_pos (List.any_eq_true.mpr ⟨v, hv, by simpa using hle⟩)]
    · intro hall
      rw [suppressPre_some hp, if_neg]
      · exact hp
      · intro hany
        obtain ⟨v, hv, hle⟩ := List.any_eq_true.mp hany
        exact verLt_not_le (hall v hv) (by simpa using hle)

/-- Witness for C3: suppression applied at the concrete record computed
for current 1.2.3 and available 3.0.0 and 2.9.0-RC1. -/
theorem claim3_witness :
    (suppressPre ⟨some (Version.new (str "3.0.0")), none, none,
        some (Version.new (str "2.9.0-RC1"))⟩).pre_release = none :=
  (claim3_pre_release_suppression.2.2.1
      ⟨some (Version.new (str "3.0.0")), none, none,
        some (Version.new (str "2.9.0-RC1"))⟩
      (Version.new (str "2.9.0-RC1")) (by decide)).1
    ⟨Version.new (str "3.0.0"), by decide, by decide⟩

/-- Claim C8: when the current version is not a `SemVer`, the computation
uses the parsed `0.0.0` as comparison floor (the current version itself is
not modified, the engine being a pure function of its arguments); the
result is `none` exactly when all four tiers end up empty; in particular
the result is `none` for an empty available list and for current `2.2.3`
with available versions all at most `2.2.3`, same-value pre-releases
included. -/
theorem claim8_zero_floor_and_empty :
    (∀ (current : Version) (available : List Version),
        current.isSemVer = false →
        UpdateOptions.new current available
          = UpdateOptions.get_options_semver (Version.SemVer 0 0 0 none) available)
    ∧ Version.new (str "0.0.0") = Version.SemVer 0 0 0 none
    ∧ (∀ (current : Version) (available : List Version),
        current.isSemVer = true →
        (UpdateOptions.new current available = none
          ↔ (suppressPre (tierPass current available)).isEmpty = true))
    ∧ (∀ current : Version, UpdateOptions.new current [] = none)
    ∧ UpdateOptions.new (Version.new (str "2.2.3"))
        [Version.new (str "1.0.0"), Version.new (str "1.1.0"),
         Version.new (str "1.2.0"), Version.new (str "1.2.3"),
         Version.new (str "1.2.3-RC1"), Version.new (str "1.2.3-M1"),
         Version.new (str "2.0.0"), Version.new (str "2.1.0"),
         Version.new (str "2.2.0"), Version.new (str "2.2.3"),
         Version.new (str "2.2.3-RC1"), Version.new (str "2.2.3-M1")]
        = none := by
  refine ⟨?_, by decide, ?_, ?_, by decide⟩
  · intro current available h
    cases current with
    | SemVer m n p pr => simp [Version.isSemVer] at h
    | Other s =>
      show UpdateOptions.get_options_semver (Version.new (str "0.0.0")) available = _
      rw [show Version.new (str "0.0.0") = Version.SemVer 0 0 0 none from by decide]
  · intro current available h
    cases current with
    | Other s => simp [Version.isSemVer] at h
    | SemVer m n p pr =>
      show UpdateOptions.get_options_semver _ available = none ↔ _
      unfold UpdateOptions.get_options_semver
      cases he : (suppressPre (tierPass (Version.SemVer m n p pr) available)).isEmpty <;>
        simp [he]
  · intro current
    cases current with
    | SemVer m n p pr => rfl
    | Other s => rfl

/-- Witness for C8: the zero floor applied at a concrete non-semantic
current version. -/
theorem claim8_witness :
    UpdateOptions.new (Version.Other (str "oops")) [Version.new (str "0.5.0")]
      = UpdateOptions.get_options_semver (Version.SemVer 0 0 0 none)
          [Version.new (str "0.5.0")] :=
  claim8_zero_floor_and_empty.1 (Version.Other (str "oops"))
    [Version.new (str "0.5.0")] (by decide)

/-! ### Claim C4: characterisation of version parsing -/

theorem splitn2_splitFirst (sep : Char) (s : Str) :
    splitn 2 sep s = match splitFirst sep s with
      | none => [s]
      | some (a, b) => [a, b] := by
  show (match splitFirst sep s with
    | none => [s]
    | some (a, b) => a :: splitn 1 sep b) = _
  cases splitFirst sep s with
  | none => rfl
  | some p => rfl

theorem splitn3_splitFirst (sep : Char) (s : Str) :
    splitn 3 sep s = match splitFirst sep s with
      | none => [s]
      | some (a, b) =>
        match splitFirst sep b with
        | none => [a, b]
        | some (c, d) => [a, c, d] := by
  show (match splitFirst sep s with
    | none => [s]
    | some (a, b) => a :: splitn 2 sep b) = _
  cases splitFirst sep s with
  | none => rfl
  | some p =>
    obtain ⟨a, b⟩ := p
    show a :: splitn 2 sep b = match splitFirst sep b with
      | none => [a, b]
      | some (c, d) => [a, c, d]
    rw [splitn2_splitFirst]
    cases splitFirst sep b with
    | none => rfl
    | some q => obtain ⟨c, d⟩ := q; rfl

theorem parse_pre_release_other {s : Str}
    (h1 : ['R', 'C'].isPrefixOf s = false) (h2 : ['M'].isPrefixOf s = false) :
    Version.parse_pre_release s = .Other s := by
  rw [Version.parse_pre_release.eq_def]
  split
  · simp [List.isPrefixOf] at h1
  · simp [List.isPrefixOf] at h2
  · rfl

/-- Specification-side pre-release mapping following the amended claim: a
suffix that starts with `RC` gives `RC` of the numeric value of the rest,
defaulting to `0`; likewise for `M`; every other suffix is kept verbatim
as `PreRelease.Other`. -/
def preReleaseSpecC4 (s : Str) : PreRelease :=
  if ['R', 'C'].isPrefixOf s then .RC ((parseU32 (s.drop 2)).getD 0)
  else if ['M'].isPrefixOf s then .M ((parseU32 (s.drop 1)).getD 0)
  else .Other s

theorem parse_pre_release_eq_spec (s : Str) :
    Version.parse_pre_release s = preReleaseSpecC4 s := by
  by_cases h1 : ['R', 'C'].isPrefixOf s
  · obtain ⟨t, rfl⟩ := List.isPrefixOf_iff_prefix.mp h1
    show Version.parse_pre_release ('R' :: 'C' :: t) = _
    unfold preReleaseSpecC4
    rw [if_pos (by simpa using h1)]
    rfl
  · by_cases h2 : ['M'].isPrefixOf s
    · obtain ⟨t, rfl⟩ := List.isPrefixOf_iff_prefix.mp h2
      show Version.parse_pre_release ('M' :: t) = _
      unfold preReleaseSpecC4
      rw [if_neg (by simpa using h1), if_pos (by simpa using h2)]
      rfl
    · rw [parse_pre_release_other (by rw [Bool.not_eq_true] at h1; exact h1)
        (by rw [Bool.not_eq_true] at h2; exact h2)]
      unfold preReleaseSpecC4
      rw [if_neg (by simpa using h1), if_neg (by simpa using h2)]

theorem parse_semver_splitFirst (s : Str) :
    Version.parse_semver s
      = match splitFirst '.' s with
        | none => none
        | some (c1, r1) =>
          match splitFirst '.' r1 with
          | none =>
            match splitFirst '-' r1 with
            | none =>
              match parseU32 c1, parseU32 r1 with
              | some a, some b => some (a, b, 0, none)
              | _, _ => none
            | some (num, suf) =>
              match parseU32 c1, parseU32 num with
              | some a, some b => some (a, b, 0, some (Version.parse_pre_release suf))
              | _, _ => none
          | some (c2, r2) =>
            match parseU32 c1, parseU32 c2 with
            | some a, some b =>
              match splitFirst '-' r2 with
              | none =>
                match parseU32 r2 with
                | some c => some (a, b, c, none)
                | none => none
              | some (num, suf) =>
                match parseU32 num with
                | some c => some (a, b, c, some (Version.parse_pre_release suf))
                | none => none
            | _, _ => none := by
  unfold Version.parse_semver
  rw [splitn3_splitFirst]
  rcases h1 : splitFirst '.' s with _ | ⟨c1, r1⟩
  · rfl
  · simp only []
    rcases h2 : splitFirst '.' r1 with _ | ⟨c2, r2⟩
    · simp only []
      rw [splitn2_splitFirst]
      rcases hd : splitFirst '-' r1 with _ | ⟨num, suf⟩ <;>
        cases hpa : parseU32 c1 <;> simp only [] <;>
        first
        | rfl
        | (cases hpb : parseU32 r1 <;> rfl)
        | (cases hpb : parseU32 num <;> rfl)
    · simp only []
      rw [splitn2_splitFirst]
      cases hpa : parseU32 c1 <;> cases hpb : parseU32 c2 <;> simp only [] <;>
        first
        | rfl
        | (rcases hd : splitFirst '-' r2 with _ | ⟨num, suf⟩ <;> simp only [] <;>
            first
            | (cases hpc : parseU32 r2 <;> rfl)
            | (cases hpc : parseU32 num <;> rfl))

/-- Specification-side version grammar following the amended claim: split
at the first two dots; a 2-component or 3-component form whose numeric
components parse as `u32`, with an optional dash suffix on the final
component, yields the corresponding `SemVer` (2-component forms get patch
`0`, the suffix mapped by `preReleaseSpecC4`); anything else yields
`Version.Other` carrying the entire original string. -/
def versionSpecC4 (s : Str) : Version :=
  match splitFirst '.' s with
  | none => .Other s
  | some (c1, r1) =>
    match splitFirst '.' r1 with
    | none =>
      match splitFirst '-' r1 with
      | none =>
        match parseU32 c1, parseU32 r1 with
        | some a, some b => .SemVer a b 0 none
        | _, _ => .Other s
      | some (num, suf) =>
        match parseU32 c1, parseU32 num with
        | some a, some b => .SemVer a b 0 (some (preReleaseSpecC4 suf))
        | _, _ => .Other s
    | some (c2, r2) =>
      match parseU32 c1, parseU32 c2 with
      | some a, some b =>
        match splitFirst '-' r2 with
        | none =>
          match parseU32 r2 with
          | some c => .SemVer a b c none
          | none => .Other s
        | some (num, suf) =>
          match parseU32 num with
          | some c => .SemVer a b c (some (preReleaseSpecC4 suf))
          | none => .Other s
      | _, _ => .Other s

theorem version_new_eq_specC4 (s : Str) : Version.new s = versionSpecC4 s := by
  unfold Version.new versionSpecC4
  rw [parse_semver_splitFirst]
  rcases h1 : splitFirst '.' s with _ | ⟨c1, r1⟩
  · rfl
  · simp only []
    rcases h2 : splitFirst '.' r1 with _ | ⟨c2, r2⟩ <;> simp only []
    · rcases hd : splitFirst '-' r1 with _ | ⟨num, suf⟩ <;> simp only []
      · cases hpa : parseU32 c1
        · rfl
        · cases hpb : parseU32 r1 <;> rfl
      · rw [parse_pre_release_eq_spec suf]
        cases hpa : parseU32 c1
        · rfl
        · cases hpb : parseU32 num <;> rfl
    · cases hpa : parseU32 c1 <;> cases hpb : parseU32 c2
      · rfl
      · rfl
      · rfl
      · rcases hd : splitFirst '-' r2 with _ | ⟨num, suf⟩ <;> simp only []
        · cases hpc : parseU32 r2 <;> rfl
        · rw [parse_pre_release_eq_spec suf]
          cases hpc : parseU32 num <;> rfl

/-- Counterexample to claim C4 as stated: the suffix `RCx` is not `RC`
followed by digits, so the claim maps it to `PreRelease.Other "RCx"`, but
the code parses the remainder with `unwrap_or(0)` and yields `RC 0`. -/
theorem claim4_counterexample :
    Version.new (str "1.0.0-RCx") = Version.SemVer 1 0 0 (some (.RC 0))
      ∧ Version.new (str "1.0.0-RCx")
          ≠ Version.SemVer 1 0 0 (some (.Other (str "RCx"))) :=
  ⟨by decide, by decide⟩

/-- Claim C4 (amended): parsing accepts 2-component or 3-component
dot-separated forms with `u32` numeric components and an optional dash
suffix on the last component (2-component forms get patch `0`); a suffix
starting with `RC` yields `RC` of the numeric value of the rest or `0`
when the rest does not parse, a suffix starting with `M` likewise yields
`M`, and any other suffix yields `PreRelease.Other`; every string failing
this parse yields `Version.Other` carrying the entire original string,
never a partial match. -/
theorem claim4_parse_characterisation :
    (∀ s : Str, Version.new s = versionSpecC4 s)
    ∧ (∀ s : Str, (∃ m n p pr, Version.new s = Version.SemVer m n p pr)
        ∨ Version.new s = Version.Other s) := by
  refine ⟨version_new_eq_specC4, ?_⟩
  intro s
  unfold Version.new
  cases hp : Version.parse_semver s with
  | none => exact Or.inr rfl
  | some q =>
    obtain ⟨m, n, p, pr⟩ := q
    exact Or.inl ⟨m, n, p, pr, rfl⟩

/-! ### The span editor (`src/parser/span.rs`) -/

/-- `struct Span` from `src/parser/span.rs`; the Rust field `end` is
called `endPos` here because `end` is a Lean keyword. -/
structure Span : Type where
  start : Nat
  endPos : Nat
deriving DecidableEq

/-- `struct Edit` from `src/parser/span.rs`. -/
structure Edit : Type where
  span : Span
  text : Str
deriving DecidableEq

/-- Rust string slicing `s[a..b]`: `none` models the panic on an invalid
range.  In the character-list model the UTF-8 byte-boundary condition
cannot arise; only range validity is modelled. -/
def slice? (s : Str) (a b : Nat) : Option Str :=
  if a ≤ b ∧ b ≤ s.length then some ((s.drop a).take (b - a)) else none

/-- Key order of `sort_by_key(|e| e.span.start)`. -/
def editLE (e f : Edit) : Prop := e.span.start ≤ f.span.start

instance : DecidableRel editLE := fun e f => by
  unfold editLE; infer_instance

instance : IsTotal Edit editLE :=
  ⟨fun e f => Nat.le_total e.span.start f.span.start⟩

instance : IsTrans Edit editLE :=
  ⟨fun _ _ _ h1 h2 => Nat.le_trans h1 h2⟩

/-- The walk of `Edit::apply_edits` (`src/parser/span.rs` lines 50-71)
over the already-sorted list, carrying `last_index`, `previous_end` and
the accumulated `result`; `none` models a slicing panic. -/
def applyLoop (original : Str) : List Edit → Nat → Nat → Str → Option Str
  | [], lastIndex, _, acc =>
    (slice? original lastIndex original.length).map (fun tail => acc ++ tail)
  | e :: rest, lastIndex, previousEnd, acc =>
    if e.span.start < previousEnd then
      applyLoop original rest lastIndex previousEnd acc
    else
      match slice? original lastIndex e.span.start with
      | none => none
      | some seg =>
        applyLoop original rest e.span.endPos e.span.endPos (acc ++ seg ++ e.text)

/-- `Edit::apply_edits` (`src/parser/span.rs` lines 42-72): stable sort by
span start, then the walk.  `List.insertionSort` is a stable sort and so
extensionally equal to the stable `sort_by_key` used by Rust. -/
def applyEdits (edits : List Edit) (original : Str) : Option Str :=
  applyLoop original (List.insertionSort editLE edits) 0 0 []

/-- Specification-side view: the edits the walk keeps, dropping every edit
whose start lies before the previous kept edit end. -/
def selectEdits : Nat → List Edit → List Edit
  | _, [] => []
  | prev, e :: rest =>
    if e.span.start < prev then selectEdits prev rest
    else e :: selectEdits e.span.endPos rest

/-- Rendering a list of edits with no overlap check. -/
def renderLoop (original : Str) : List Edit → Nat → Str → Option Str
  | [], lastIndex, acc =>
    (slice? original lastIndex original.length).map (fun tail => acc ++ tail)
  | e :: rest, lastIndex, acc =>
    match slice? original lastIndex e.span.start with
    | none => none
    | some seg => renderLoop original rest e.span.endPos (acc ++ seg ++ e.text)

theorem applyLoop_eq_render (original : Str) :
    ∀ (l : List Edit) (k : Nat) (acc : Str),
      applyLoop original l k k acc
        = renderLoop original (selectEdits k l) k acc := by
  intro l
  induction l with
  | nil => intro k acc; rfl
  | cons e rest ih =>
    intro k acc
    show (if e.span.start < k then applyLoop original rest k k acc
      else match slice? original k e.span.start with
        | none => none
        | some seg =>
          applyLoop original rest e.span.endPos e.span.endPos (acc ++ seg ++ e.text)) = _
    unfold selectEdits
    split_ifs with h
    · exact ih k acc
    · have hr : renderLoop original (e :: selectEdits e.span.endPos rest) k acc
          = match slice? original k e.span.start with
            | none => none
            | some seg =>
              renderLoop original (selectEdits e.span.endPos rest) e.span.endPos
                (acc ++ seg ++ e.text) := rfl
      rw [hr]
      cases slice? original k e.span.start with
      | none => rfl
      | some seg => exact ih e.span.endPos (acc ++ seg ++ e.text)

/-- The full `apply_edits` pipeline factored through `selectEdits`. -/
theorem applyEdits_eq_render (edits : List Edit) (original : Str) :
    applyEdits edits original
      = renderLoop original
          (selectEdits 0 (List.insertionSort editLE edits)) 0 [] :=
  applyLoop_eq_render original (List.insertionSort editLE edits) 0 []

/-- Claim C5: `apply_edits` sorts the edits ascending by span start and,
walking with a previous-end cursor starting at `0`, entirely discards any
edit that starts before the previous applied edit end; every kept edit
replaces exactly its span with its replacement text; in particular the
Hello-world example yields the stated result and of two overlapping edits
only the earlier-starting one is applied. -/
theorem claim5_apply_edits_overlap_policy :
    (∀ (edits : List Edit) (original : Str),
        applyEdits edits original
          = renderLoop original
              (selectEdits 0 (List.insertionSort editLE edits)) 0 [])
    ∧ (∀ (e1 e2 : Edit) (original : Str),
        editLE e1 e2 → e2.span.start < e1.span.endPos →
        applyEdits [e1, e2] original = applyEdits [e1] original)
    ∧ applyEdits
        [⟨⟨7, 12⟩, str "Rust"⟩, ⟨⟨0, 5⟩, str "Hi"⟩]
        (str "Hello, world!")
        = some (str "Hi, Rust!") := by
  refine ⟨applyEdits_eq_render, ?_, by decide⟩
  intro e1 e2 original hle hov
  have hsort2 : List.insertionSort editLE [e1, e2] = [e1, e2] := by
    simp [List.insertionSort, List.orderedInsert, hle]
  have hsort1 : List.insertionSort editLE [e1] = [e1] := by
    simp [List.insertionSort, List.orderedInsert]
  unfold applyEdits
  rw [hsort1, hsort2]
  show (if e1.span.start < 0 then applyLoop original [e2] 0 0 []
    else match slice? original 0 e1.span.start with
      | none => none
      | some seg =>
        applyLoop original [e2] e1.span.endPos e1.span.endPos
          (([] : Str) ++ seg ++ e1.text)) = _
  rw [if_neg (Nat.not_lt_zero _)]
  have h1 : applyLoop original [e1] 0 0 []
      = match slice? original 0 e1.span.start with
        | none => none
        | some seg =>
          applyLoop original [] e1.span.endPos e1.span.endPos
            (([] : Str) ++ seg ++ e1.text) := by
    show (if e1.span.start < 0 then applyLoop original [] 0 0 [] else _) = _
    rw [if_neg (Nat.not_lt_zero _)]
  rw [h1]
  cases slice? original 0 e1.span.start with
  | none => rfl
  | some seg =>
    show (if e2.span.start < e1.span.endPos then
        applyLoop original [] e1.span.endPos e1.span.endPos
          (([] : Str) ++ seg ++ e1.text)
      else _) = _
    rw [if_pos hov]

/-- Witness for C5: the two-overlapping-edits clause applied at a concrete
pair of edits on a concrete text. -/
theorem claim5_witness :
    applyEdits [⟨⟨1, 4⟩, str "ZZ"⟩, ⟨⟨2, 6⟩, str "Q"⟩] (str "abcdefg")
      = applyEdits [⟨⟨1, 4⟩, str "ZZ"⟩] (str "abcdefg") :=
  claim5_apply_edits_overlap_policy.2.1
    ⟨⟨1, 4⟩, str "ZZ"⟩ ⟨⟨2, 6⟩, str "Q"⟩ (str "abcdefg")
    (by decide) (by decide)

/-- Two edits whose byte ranges do not overlap: one ends at or before the
other starts. -/
def disjointE (e f : Edit) : Prop :=
  e.span.endPos ≤ f.span.start ∨ f.span.endPos ≤ e.span.start

instance : DecidableRel disjointE := fun e f => by
  unfold disjointE; infer_instance

theorem disjointE_symm {e f : Edit} (h : disjointE e f) : disjointE f e :=
  h.symm

/-- Specification-side result of applying non-overlapping edits in
ascending span order: the original text with each span replaced by its
replacement, every byte outside the spans kept in order. -/
def replaceSpans (original : Str) : List Edit → Nat → Str
  | [], pos => original.drop pos
  | e :: rest, pos =>
    ((original.drop pos).take (e.span.start - pos)) ++ e.text
      ++ replaceSpans original rest e.span.endPos

theorem renderLoop_eq_replace (original : Str) :
    ∀ (l : List Edit) (pos : Nat) (acc : Str),
      pos ≤ original.length →
      (∀ e ∈ l, e.span.start ≤ e.span.endPos ∧ e.span.endPos ≤ original.length) →
      List.Chain' (fun e f => e.span.endPos ≤ f.span.start) l →
      (∀ e ∈ l.head?, pos ≤ e.span.start) →
      renderLoop original l pos acc
        = some (acc ++ replaceSpans original l pos) := by
  intro l
  induction l with
  | nil =>
    intro pos acc hpos _ _ _
    show (slice? original pos original.length).map _ = _
    unfold slice?
    rw [if_pos ⟨hpos, Nat.le_refl _⟩]
    show some (acc ++ (original.drop pos).take (original.length - pos)) = _
    rw [show original.length - pos = (original.drop pos).length by simp,
      List.take_length]
    rfl
  | cons e rest ih =>
    intro pos acc hpos hbounds hchain hhead
    have he : pos ≤ e.span.start := hhead e (by simp)
    have heb := hbounds e (by simp)
    have hstart : e.span.start ≤ original.length :=
      Nat.le_trans heb.1 heb.2
    show (match slice? original pos e.span.start with
      | none => none
      | some seg =>
        renderLoop original rest e.span.endPos (acc ++ seg ++ e.text)) = _
    unfold slice?
    rw [if_pos ⟨he, hstart⟩]
    show renderLoop original rest e.span.endPos
        (acc ++ (original.drop pos).take (e.span.start - pos) ++ e.text) = _
    rw [ih e.span.endPos _ heb.2 (fun f hf => hbounds f (by simp [hf]))
      (List.chain'_cons'.mp hchain).2
      (fun f hf => (List.chain'_cons'.mp hchain).1 f hf)]
    show some _ = some _
    rw [show replaceSpans original (e :: rest) pos
      = ((original.drop pos).take (e.span.start - pos)) ++ e.text
          ++ replaceSpans original rest e.span.endPos from rfl]
    simp [List.append_assoc]

theorem selectEdits_eq_self :
    ∀ (l : List Edit) (k : Nat),
      List.Chain' (fun e f => e.span.endPos ≤ f.span.start) l →
      (∀ e ∈ l.head?, k ≤ e.span.start) →
      (∀ e ∈ l, e.span.start ≤ e.span.endPos) →
      selectEdits k l = l := by
  intro l
  induction l with
  | nil => intro k _ _ _; rfl
  | cons e rest ih =>
    intro k hchain hhead hproper
    have he : k ≤ e.span.start := hhead e (by simp)
    unfold selectEdits
    rw [if_neg (Nat.not_lt.mpr he)]
    rw [ih e.span.endPos (List.chain'_cons'.mp hchain).2
      (fun f hf => (List.chain'_cons'.mp hchain).1 f hf)
      (fun f hf => hproper f (by simp [hf]))]

/-- Counterexample to claim C6 as stated: the empty-span edit at offset 2
does not overlap the edit covering bytes 2 to 5 (their byte ranges are
disjoint and both lie in the text), yet `apply_edits` silently drops it:
the output equals the one of applying the first edit alone and does not
contain the second replacement text, whereas the claim requires every
span to be replaced by its replacement text. -/
theorem claim6_counterexample :
    List.Pairwise disjointE
      [⟨⟨2, 5⟩, str "XX"⟩, ⟨⟨2, 2⟩, str "YY"⟩]
    ∧ (∀ e ∈ [(⟨⟨2, 5⟩, str "XX"⟩ : Edit), ⟨⟨2, 2⟩, str "YY"⟩],
        e.span.start ≤ e.span.endPos ∧ e.span.endPos ≤ (str "abcdefgh").length)
    ∧ applyEdits [⟨⟨2, 5⟩, str "XX"⟩, ⟨⟨2, 2⟩, str "YY"⟩] (str "abcdefgh")
        = applyEdits [⟨⟨2, 5⟩, str "XX"⟩] (str "abcdefgh")
    ∧ applyEdits [⟨⟨2, 5⟩, str "XX"⟩, ⟨⟨2, 2⟩, str "YY"⟩] (str "abcdefgh")
        = some (str "abXXfgh")
    ∧ applyEdits [⟨⟨2, 5⟩, str "XX"⟩, ⟨⟨2, 2⟩, str "YY"⟩] (str "abcdefgh")
        ≠ some (replaceSpans (str "abcdefgh")
            (List.insertionSort editLE
              [⟨⟨2, 5⟩, str "XX"⟩, ⟨⟨2, 2⟩, str "YY"⟩]) 0) := by
  refine ⟨by decide, by decide, by decide, by decide, by decide⟩

/-- Claim C6 (amended): for every list of pairwise non-overlapping edits
with proper, nonempty spans lying within the original text, `apply_edits`
succeeds and returns exactly the original text with each span replaced by
its replacement text in ascending span order, every byte outside the
spans appearing unchanged, in order. -/
theorem claim6_frame_property :
    ∀ (edits : List Edit) (original : Str),
      (∀ e ∈ edits, e.span.start < e.span.endPos
        ∧ e.span.endPos ≤ original.length) →
      List.Pairwise disjointE edits →
      applyEdits edits original
        = some (replaceSpans original (List.insertionSort editLE edits) 0) := by
  intro edits original hb hd
  have hperm : List.Perm (List.insertionSort editLE edits) edits :=
    List.perm_insertionSort editLE edits
  have hb' : ∀ e ∈ List.insertionSort editLE edits,
      e.span.start < e.span.endPos ∧ e.span.endPos ≤ original.length :=
    fun e he => hb e (hperm.mem_iff.mp he)
  have hdis : List.Pairwise disjointE (List.insertionSort editLE edits) :=
    (List.Perm.pairwise_iff (fun h => disjointE_symm h) hperm).mpr hd
  have hle : List.Pairwise editLE (List.insertionSort editLE edits) :=
    List.sorted_insertionSort editLE edits
  have hchainP : List.Pairwise (fun e f => e.span.endPos ≤ f.span.start)
      (List.insertionSort editLE edits) := by
    have hand : List.Pairwise (fun a b => editLE a b ∧ disjointE a b)
        (List.insertionSort editLE edits) :=
      List.pairwise_iff_forall_sublist.mpr
        (fun hsub => ⟨List.pairwise_iff_forall_sublist.mp hle hsub,
          List.pairwise_iff_forall_sublist.mp hdis hsub⟩)
    refine List.Pairwise.imp_of_mem ?_ hand
    intro a b ha hbmem hR
    rcases hR with ⟨hab, hdis2 | hdis2⟩
    · exact hdis2
    · have h1 := hb' a ha
      have h2 := hb' b hbmem
      unfold editLE at hab
      omega
  have hchain : List.Chain' (fun e f => e.span.endPos ≤ f.span.start)
      (List.insertionSort editLE edits) := hchainP.chain'
  rw [applyEdits_eq_render,
    selectEdits_eq_self _ 0 hchain (fun e _ => Nat.zero_le _)
      (fun e he => Nat.le_of_lt (hb' e he).1),
    renderLoop_eq_replace original _ 0 [] (Nat.zero_le _)
      (fun e he => ⟨Nat.le_of_lt (hb' e he).1, (hb' e he).2⟩)
      hchain (fun e _ => Nat.zero_le _)]
  simp

/-- Witness for C6 (amended): the frame property applied at two concrete
disjoint edits, matching the Hello-world example. -/
theorem claim6_witness :
    applyEdits [⟨⟨7, 12⟩, str "Rust"⟩, ⟨⟨0, 5⟩, str "Hi"⟩] (str "Hello, world!")
      = some (replaceSpans (str "Hello, world!")
          (List.insertionSort editLE
            [⟨⟨7, 12⟩, str "Rust"⟩, ⟨⟨0, 5⟩, str "Hi"⟩]) 0) :=
  claim6_frame_property
    [⟨⟨7, 12⟩, str "Rust"⟩, ⟨⟨0, 5⟩, str "Hi"⟩] (str "Hello, world!")
    (by decide) (by decide)

theorem applyLoop_total (original : Str) :
    ∀ (l : List Edit) (k : Nat) (acc : Str),
      k ≤ original.length →
      (∀ e ∈ l, e.span.start ≤ e.span.endPos
        ∧ e.span.endPos ≤ original.length) →
      ∃ r, applyLoop original l k k acc = some r := by
  intro l
  induction l with
  | nil =>
    intro k acc hk _
    show ∃ r, (slice? original k original.length).map _ = some r
    unfold slice?
    rw [if_pos ⟨hk, Nat.le_refl _⟩]
    exact ⟨_, rfl⟩
  | cons e rest ih =>
    intro k acc hk hb
    have heb := hb e (by simp)
    show ∃ r, (if e.span.start < k then applyLoop original rest k k acc
      else match slice? original k e.span.start with
        | none => none
        | some seg =>
          applyLoop original rest e.span.endPos e.span.endPos
            (acc ++ seg ++ e.text)) = some r
    split_ifs with h
    · exact ih k acc hk (fun f hf => hb f (by simp [hf]))
    · have hs : slice? original k e.span.start
          = some ((original.drop k).take (e.span.start - k)) := by
        unfold slice?
        rw [if_pos ⟨Nat.not_lt.mp h, Nat.le_trans heb.1 heb.2⟩]
      rw [hs]
      exact ih e.span.endPos _ heb.2 (fun f hf => hb f (by simp [hf]))

/-- Claim C10: `apply_edits` is partial at its public interface: an edit
whose span reaches past the end of the original text makes it panic via
out-of-range string slicing (modelled as `none`), while under the
precondition that every edit span lies within the original text it always
succeeds.  The UTF-8 character-boundary half of the precondition is not
representable in the character-list model and is subsumed by it. -/
theorem claim10_apply_edits_partiality :
    applyEdits [⟨⟨0, 99⟩, str "X"⟩] (str "short") = none
    ∧ (∀ (edits : List Edit) (original : Str),
        (∀ e ∈ edits, e.span.start ≤ e.span.endPos
          ∧ e.span.endPos ≤ original.length) →
        ∃ r, applyEdits edits original = some r) := by
  refine ⟨by decide, ?_⟩
  intro edits original hb
  unfold applyEdits
  exact applyLoop_total original (List.insertionSort editLE edits) 0 []
    (Nat.zero_le _)
    (fun e he => hb e ((List.perm_insertionSort editLE edits).mem_iff.mp he))

/-- Witness for C10: totality applied at a concrete in-bounds edit. -/
theorem claim10_witness :
    ∃ r, applyEdits [⟨⟨1, 3⟩, str "Z"⟩] (str "abcd") = some r :=
  claim10_apply_edits_partiality.2 [⟨⟨1, 3⟩, str "Z"⟩] (str "abcd") (by decide)

/-! ### The dependency map (`src/dependency_resolver/mod.rs`) -/

/-- `struct Location` from `src/dependency_resolver/mod.rs`. -/
structure Location : Type where
  file_path : Str
  span : Span
deriving DecidableEq

/-- `struct VersionWithLocations` from `src/dependency_resolver/mod.rs`. -/
structure VersionWithLocations : Type where
  version : Version
  locations : List Location
deriving DecidableEq

/-- `VersionWithLocations::new` (lines 37-42). -/
def VersionWithLocations.new (version : Version) (location : Location) :
    VersionWithLocations :=
  ⟨version, [location]⟩

/-- `VersionWithLocations::add` (lines 45-51): keep the greater version
and append the location. -/
def VersionWithLocations.add (e : VersionWithLocations) (version : Version)
    (location : Location) : VersionWithLocations :=
  { version := if Version.cmp version e.version = .gt then version else e.version,
    locations := e.locations ++ [location] }

/-- One dependency record: one textual occurrence of a coordinate
(`struct Dependency` plus its `Location`). -/
structure DepRecord : Type where
  group : Str
  artifact : Str
  version : Version
  location : Location
deriving DecidableEq

/-- The dependency map keyed by `(group, artifact)`; the Rust `HashMap`
is modelled as a function with optional entries. -/
def DependencyMap : Type := Str × Str → Option VersionWithLocations

/-- `DependencyMap::add_dependency` (lines 88-94): `entry(key)` with
`and_modify(add)` / `or_insert_with(new)`. -/
def addDependency (m : DependencyMap) (r : DepRecord) : DependencyMap :=
  fun k =>
    if k = (r.group, r.artifact) then
      match m (r.group, r.artifact) with
      | none => some (VersionWithLocations.new r.version r.location)
      | some e => some (e.add r.version r.location)
    else m k

/-- Merging a whole list of records, first to last. -/
def buildMap (records : List DepRecord) : DependencyMap :=
  records.foldl addDependency (fun _ => none)

/-- The records of a list carrying a given key, in order. -/
def recordsFor (records : List DepRecord) (k : Str × Str) : List DepRecord :=
  records.filter (fun r => (r.group, r.artifact) == k)

/-- One merge step on a single key. -/
def mergeStep (acc : Option VersionWithLocations) (r : DepRecord) :
    Option VersionWithLocations :=
  match acc with
  | none => some (VersionWithLocations.new r.version r.location)
  | some e => some (e.add r.version r.location)

/-- The larger of two versions under the embedded ordering, keeping the
first on ties (as `VersionWithLocations::add` does). -/
def maxVer (a b : Version) : Version :=
  if Version.cmp b a = .gt then b else a

theorem buildMap_lookup_aux :
    ∀ (records : List DepRecord) (m : DependencyMap) (k : Str × Str),
      records.foldl addDependency m k
        = (recordsFor records k).foldl mergeStep (m k) := by
  intro records
  induction records with
  | nil => intro m k; rfl
  | cons r rest ih =>
    intro m k
    rw [List.foldl_cons, ih]
    by_cases hk : (r.group, r.artifact) = k
    · rw [show recordsFor (r :: rest) k = r :: recordsFor rest k from by
        unfold recordsFor; rw [List.filter_cons_of_pos (by simp [hk])]]
      rw [List.foldl_cons]
      have : addDependency m r k = mergeStep (m k) r := by
        unfold addDependency mergeStep
        rw [if_pos hk.symm, hk]
      rw [this]
    · rw [show recordsFor (r :: rest) k = recordsFor rest k from by
        unfold recordsFor; rw [List.filter_cons_of_neg (by simp [hk])]]
      have : addDependency m r k = m k := by
        unfold addDependency
        rw [if_neg (fun hc => hk hc.symm)]
      rw [this]

theorem buildMap_lookup (records : List DepRecord) (k : Str × Str) :
    buildMap records k = (recordsFor records k).foldl mergeStep none :=
  buildMap_lookup_aux records (fun _ => none) k

theorem merge_eq_seed :
    ∀ (l : List DepRecord) (e : VersionWithLocations),
      l.foldl mergeStep (some e)
        = some ⟨l.foldl (fun v r => maxVer v r.version) e.version,
                e.locations ++ l.map (fun r => r.location)⟩ := by
  intro l
  induction l with
  | nil => intro e; simp
  | cons r rest ih =>
    intro e
    rw [List.foldl_cons]
    show rest.foldl mergeStep (some (e.add r.version r.location)) = _
    rw [ih]
    simp [VersionWithLocations.add, maxVer, List.append_assoc]

theorem merge_none_iff (l : List DepRecord) :
    l.foldl mergeStep none = none ↔ l = [] := by
  cases l with
  | nil => simp
  | cons r rest =>
    rw [List.foldl_cons]
    show rest.foldl mergeStep (some (VersionWithLocations.new r.version r.location)) = none ↔ _
    rw [merge_eq_seed]
    simp

theorem verLe_antisymm {a b : Version} (h1 : Version.le a b) (h2 : Version.le b a) :
    a = b := by
  cases h : Version.cmp a b with
  | lt =>
    exfalso
    apply h2
    rw [verCmp_swap a b, h]
    rfl
  | eq => exact (verCmp_eq_iff a b).mp h
  | gt => exact absurd h h1

theorem le_maxVer_left (a b : Version) : Version.le a (maxVer a b) := by
  unfold maxVer
  split_ifs with h
  · intro hc
    rw [verCmp_swap a b, hc] at h
    exact nomatch h
  · exact verLe_refl a

theorem le_maxVer_right (a b : Version) : Version.le b (maxVer a b) := by
  unfold maxVer
  split_ifs with h
  · exact verLe_refl b
  · exact h

theorem maxVer_le {a b c : Version} (h1 : Version.le a c) (h2 : Version.le b c) :
    Version.le (maxVer a b) c := by
  unfold maxVer
  split_ifs
  · exact h2
  · exact h1

theorem maxVer_cases (a b : Version) : maxVer a b = a ∨ maxVer a b = b := by
  unfold maxVer
  split_ifs
  · exact Or.inr rfl
  · exact Or.inl rfl

theorem maxVer_comm (a b : Version) : maxVer a b = maxVer b a :=
  verLe_antisymm
    (maxVer_le (le_maxVer_right b a) (le_maxVer_left b a))
    (maxVer_le (le_maxVer_right a b) (le_maxVer_left a b))

theorem maxVer_left_comm (m a b : Version) :
    maxVer (maxVer m a) b = maxVer (maxVer m b) a :=
  verLe_antisymm
    (maxVer_le
      (maxVer_le
        (verLe_trans _ _ _ (le_maxVer_left m b) (le_maxVer_left (maxVer m b) a))
        (le_maxVer_right (maxVer m b) a))
      (verLe_trans _ _ _ (le_maxVer_right m b) (le_maxVer_left (maxVer m b) a)))
    (maxVer_le
      (maxVer_le
        (verLe_trans _ _ _ (le_maxVer_left m a) (le_maxVer_left (maxVer m a) b))
        (le_maxVer_right (maxVer m a) b))
      (verLe_trans _ _ _ (le_maxVer_right m a) (le_maxVer_left (maxVer m a) b)))

theorem le_foldl_maxVer_seed :
    ∀ (l : List Version) (x : Version), Version.le x (l.foldl maxVer x) := by
  intro l
  induction l with
  | nil => intro x; exact verLe_refl x
  | cons v rest ih =>
    intro x
    rw [List.foldl_cons]
    exact verLe_trans _ _ _ (le_maxVer_left x v) (ih (maxVer x v))

theorem le_foldl_maxVer_mem :
    ∀ (l : List Version) (x v : Version), v ∈ l → Version.le v (l.foldl maxVer x) := by
  intro l
  induction l with
  | nil => intro x v hv; cases hv
  | cons a rest ih =>
    intro x v hv
    rw [List.foldl_cons]
    rcases List.mem_cons.mp hv with rfl | hv2
    · exact verLe_trans _ _ _ (le_maxVer_right x v) (le_foldl_maxVer_seed rest (maxVer x v))
    · exact ih (maxVer x a) v hv2

theorem foldl_maxVer_mem :
    ∀ (l : List Version) (x : Version), l.foldl maxVer x = x ∨ l.foldl maxVer x ∈ l := by
  intro l
  induction l with
  | nil => intro x; exact Or.inl rfl
  | cons a rest ih =>
    intro x
    rw [List.foldl_cons]
    rcases ih (maxVer x a) with h | h
    · rw [h]
      rcases maxVer_cases x a with h2 | h2
      · exact Or.inl h2
      · exact Or.inr (by rw [h2]; exact List.mem_cons_self a rest)
    · exact Or.inr (List.mem_cons_of_mem a h)

/-- Claim C7: merging a fixed multiset of dependency records in any order
yields, per key, the same stored version, namely the maximum of all merged
versions under the version ordering, and the same locations up to
permutation (hence as sets), namely one location per merged record with
that key. -/
theorem claim7_merge_order_independent :
    (∀ (records : List DepRecord) (k : Str × Str) (e : VersionWithLocations),
        buildMap records k = some e →
        (e.version ∈ (recordsFor records k).map (fun r => r.version)
          ∧ ∀ v ∈ (recordsFor records k).map (fun r => r.version),
              Version.le v e.version)
        ∧ e.locations = (recordsFor records k).map (fun r => r.location))
    ∧ (∀ (records : List DepRecord) (k : Str × Str),
        buildMap records k = none ↔ recordsFor records k = [])
    ∧ (∀ records records' : List DepRecord, List.Perm records records' →
        ∀ k : Str × Str,
          (buildMap records k = none ↔ buildMap records' k = none)
          ∧ (∀ e e', buildMap records k = some e → buildMap records' k = some e' →
              e.version = e'.version ∧ List.Perm e.locations e'.locations)) := by
  have hchar : ∀ (records : List DepRecord) (k : Str × Str) (e : VersionWithLocations),
      buildMap records k = some e →
      (e.version ∈ (recordsFor records k).map (fun r => r.version)
        ∧ ∀ v ∈ (recordsFor records k).map (fun r => r.version),
            Version.le v e.version)
      ∧ e.locations = (recordsFor records k).map (fun r => r.location) := by
    intro records k e he
    rw [buildMap_lookup] at he
    cases hl : recordsFor records k with
    | nil => rw [hl] at he; exact absurd he (by simp)
    | cons r rest =>
      rw [hl, List.foldl_cons,
        show mergeStep none r
          = some (VersionWithLocations.new r.version r.location) from rfl,
        merge_eq_seed] at he
      obtain rfl := (Option.some.inj he).symm
      have hv : rest.foldl (fun v rec => maxVer v rec.version) r.version
          = (rest.map (fun rec => rec.version)).foldl maxVer r.version :=
        (List.foldl_map _ _ _ _).symm
      refine ⟨⟨?_, ?_⟩, by simp [VersionWithLocations.new]⟩
      · show rest.foldl (fun v rec => maxVer v rec.version) r.version
          ∈ (r :: rest).map (fun rec => rec.version)
        rw [hv]
        rcases foldl_maxVer_mem (rest.map (fun rec => rec.version)) r.version with h | h
        · rw [h]; exact List.mem_cons_self _ _
        · exact List.mem_cons_of_mem _ h
      · intro v hvm
        show Version.le v (rest.foldl (fun v rec => maxVer v rec.version) r.version)
        rw [hv]
        rcases List.mem_cons.mp hvm with rfl | hvm2
        · exact le_foldl_maxVer_seed _ _
        · exact le_foldl_maxVer_mem _ _ _ hvm2
  refine ⟨hchar, ?_, ?_⟩
  · intro records k
    rw [buildMap_lookup]
    exact merge_none_iff _
  · intro records records' hperm k
    have hfil : List.Perm (recordsFor records k) (recordsFor records' k) :=
      hperm.filter _
    constructor
    · rw [buildMap_lookup, buildMap_lookup, merge_none_iff, merge_none_iff]
      have hlen := hfil.length_eq
      constructor <;> intro h
      · rw [h] at hlen
        exact List.length_eq_zero.mp hlen.symm
      · rw [h] at hlen
        exact List.length_eq_zero.mp hlen
    · intro e e' he he'
      obtain ⟨⟨hm, hub⟩, hloc⟩ := hchar records k e he
      obtain ⟨⟨hm', hub'⟩, hloc'⟩ := hchar records' k e' he'
      have hmap : List.Perm ((recordsFor records k).map (fun r => r.version))
          ((recordsFor records' k).map (fun r => r.version)) := hfil.map _
      constructor
      · exact verLe_antisymm
          (hub' e.version (hmap.mem_iff.mp hm))
          (hub e'.version (hmap.mem_iff.mpr hm'))
      · rw [hloc, hloc']
        exact hfil.map _

/-- Witness for C7: merging two records for the same key in both orders
gives equal stored versions and permuted location lists. -/
theorem claim7_witness :
    (⟨Version.new (str "2.0.0"),
        [⟨str "f", ⟨0, 5⟩⟩, ⟨str "f", ⟨10, 15⟩⟩]⟩ : VersionWithLocations).version
      = (⟨Version.new (str "2.0.0"),
          [⟨str "f", ⟨10, 15⟩⟩, ⟨str "f", ⟨0, 5⟩⟩]⟩ : VersionWithLocations).version
    ∧ List.Perm
        [(⟨str "f", ⟨0, 5⟩⟩ : Location), ⟨str "f", ⟨10, 15⟩⟩]
        [⟨str "f", ⟨10, 15⟩⟩, ⟨str "f", ⟨0, 5⟩⟩] :=
  (claim7_merge_order_independent.2.2
    [⟨str "g", str "a", Version.new (str "1.0.0"), ⟨str "f", ⟨0, 5⟩⟩⟩,
     ⟨str "g", str "a", Version.new (str "2.0.0"), ⟨str "f", ⟨10, 15⟩⟩⟩]
    [⟨str "g", str "a", Version.new (str "2.0.0"), ⟨str "f", ⟨10, 15⟩⟩⟩,
     ⟨str "g", str "a", Version.new (str "1.0.0"), ⟨str "f", ⟨0, 5⟩⟩⟩]
    (List.Perm.swap _ _ _)
    (str "g", str "a")).2 _ _ (by decide) (by decide)

/-! ### The language-version routine (`src/parser/mod.rs`) -/

/-- Regex `\s`, restricted to the ASCII whitespace characters (the only
ones exercised by the claims). -/
def isWsp (c : Char) : Bool :=
  c = ' ' || c = '\t' || c = '\n' || c = '\r'
    || c = Char.ofNat 11 || c = Char.ofNat 12

/-- Regex character class `[a-zA-Z_]`. -/
def isIdentStart (c : Char) : Bool := c.isAlpha || c = '_'

/-- Regex character class `[a-zA-Z0-9_]`. -/
def isIdentChar (c : Char) : Bool := c.isAlphanum || c = '_'

/-- Matching the pattern
`scalaVersion\s*:=\s*("([^"]+)"|[a-zA-Z_][a-zA-Z0-9_]*)` at one position
of the text: on success, the byte span and text of capture group 1.  The
two alternation branches start with disjoint characters, and each `\s*`
is followed by a non-whitespace requirement, so greedy maximal munch is
exact. -/
def matchScalaVersionAt (s : Str) (i : Nat) : Option (Span × Str) :=
  let t := s.drop i
  if (str "scalaVersion").isPrefixOf t then
    let t1 := t.drop 12
    let w1 := (t1.takeWhile isWsp).length
    let t2 := t1.drop w1
    if (str ":=").isPrefixOf t2 then
      let t3 := t2.drop 2
      let w2 := (t3.takeWhile isWsp).length
      let t4 := t3.drop w2
      let capStart := i + 12 + w1 + 2 + w2
      match t4 with
      | '"' :: r =>
        let body := r.takeWhile (fun c => !(c = '"'))
        if decide (0 < body.length) && decide (body.length < r.length) then
          some (⟨capStart, capStart + body.length + 2⟩, '"' :: body ++ ['"'])
        else none
      | c :: r =>
        if isIdentStart c then
          some (⟨capStart, capStart + 1 + (r.takeWhile isIdentChar).length⟩,
            c :: r.takeWhile isIdentChar)
        else none
      | [] => none
    else none
  else none

/-- Leftmost-match search: try every position from the left, as the
regex engine does. -/
def scanFrom (s : Str) : Nat → Nat → Option (Span × Str)
  | 0, _ => none
  | fuel + 1, i =>
    match matchScalaVersionAt s i with
    | some r => some r
    | none => scanFrom s fuel (i + 1)

/-- `Regex::captures` for the `scalaVersion` pattern: the leftmost match. -/
def findScalaMatch (s : Str) : Option (Span × Str) :=
  scanFrom s (s.length + 1) 0

/-- Rust `trim_matches('"')`: remove every leading and trailing quote. -/
def trimQuotes (s : Str) : Str :=
  ((s.dropWhile (fun c => c = '"')).reverse.dropWhile (fun c => c = '"')).reverse

/-- `find_scala_version` (`src/parser/mod.rs` lines 127-154).  The symbol
table `val_defs` (built upstream by the tree-sitter walk, which is an
external dependency of the crate) is a parameter: name to value text and
location. -/
def findScalaVersion (source : Str) (code : Str)
    (val_defs : Str → Option (Str × Location)) : Option (Version × Location) :=
  match findScalaMatch code with
  | none => none
  | some (span, cap) =>
    if cap.head? = some '"' ∧ cap.getLast? = some '"' then
      some (Version.new (trimQuotes cap), ⟨source, span⟩)
    else
      match val_defs cap with
      | some (value, location) => some (Version.new value, location)
      | none => none

/-- `get_scala_version_from_build_sbt` (`src/parser/mod.rs` lines
156-172), with the tree-sitter symbol table as a parameter: on success
one record with organization `org.scala-lang` and the artifact picked by
the resolved major version. -/
def getScalaVersionFromBuildSbt (source : Str) (code : Str)
    (val_defs : Str → Option (Str × Location)) : Option DepRecord :=
  match findScalaVersion source code val_defs with
  | none => none
  | some (v, loc) =>
    some ⟨str "org.scala-lang",
      if v.major = some 3 then str "scala3-library_3" else str "scala-library",
      v, loc⟩

theorem takeWhile_all {p : Char → Bool} :
    ∀ l : Str, (∀ x ∈ l, p x = true) → l.takeWhile p = l := by
  intro l
  induction l with
  | nil => intro _; rfl
  | cons a rest ih =>
    intro h
    rw [List.takeWhile_cons_of_pos (h a (by simp)), ih (fun x hx => h x (by simp [hx]))]

theorem takeWhile_append_stop {p : Char → Bool} :
    ∀ (v : Str) {c : Char} (r : Str), (∀ x ∈ v, p x = true) → p c = false →
      (v ++ c :: r).takeWhile p = v := by
  intro v
  induction v with
  | nil =>
    intro c r _ hc
    show (c :: r).takeWhile p = []
    rw [List.takeWhile_cons_of_neg (by simp [hc])]
  | cons a v' ih =>
    intro c r hall hc
    show ((a :: (v' ++ c :: r)).takeWhile p) = a :: v'
    rw [List.takeWhile_cons_of_pos (hall a (by simp)),
      ih r (fun x hx => hall x (by simp [hx])) hc]

theorem identStart_not_wsp {c : Char} (h : isIdentStart c = true) : isWsp c = false := by
  by_cases h1 : c.isAlpha = true
  · simp only [isWsp, Bool.or_eq_false_iff, decide_eq_false_iff_not]
    refine ⟨⟨⟨⟨⟨?_, ?_⟩, ?_⟩, ?_⟩, ?_⟩, ?_⟩ <;> rintro rfl <;>
      exact absurd h1 (by decide)
  · have h2 : c = '_' := by
      simp only [isIdentStart, Bool.or_eq_true, decide_eq_true_eq] at h
      exact h.resolve_left h1
    subst h2
    rfl

theorem identStart_ne_quote {c : Char} (h : isIdentStart c = true) : ¬ c = '"' := by
  rintro rfl
  exact absurd h (by decide)

/-- The pattern always matches or fails in the same way at position `0`
of a text of the shape `scalaVersion := <rest>`: the concrete prefix is
consumed and the capture group is read from `<rest>`. -/
theorem matchScala_at_zero (u : Str) :
    matchScalaVersionAt (str "scalaVersion := " ++ u) 0
      = (let w2 := ((' ' :: u).takeWhile isWsp).length
         let t4 := (' ' :: u).drop w2
         let capStart := 15 + w2
         match t4 with
         | '"' :: r =>
           let body := r.takeWhile (fun c => !(c = '"'))
           if decide (0 < body.length) && decide (body.length < r.length) then
             some (⟨capStart, capStart + body.length + 2⟩, '"' :: body ++ ['"'])
           else none
         | c :: r =>
           if isIdentStart c then
             some (⟨capStart, capStart + 1 + (r.takeWhile isIdentChar).length⟩,
               c :: r.takeWhile isIdentChar)
           else none
         | [] => none) := rfl

theorem matchScala_literal (v : Str) (hne : v ≠ []) (hq : ∀ c ∈ v, ¬ c = '"') :
    matchScalaVersionAt (str "scalaVersion := " ++ ('"' :: (v ++ ['"']))) 0
      = some (⟨16, 16 + v.length + 2⟩, '"' :: (v ++ ['"'])) := by
  have harg1 : ∀ x ∈ v, (fun c => !(c = '"')) x = true := fun x hx => by
    simp [hq x hx]
  have harg2 : (fun c => !(c = '"')) '"' = false := by decide
  have hbody : (v ++ ['"']).takeWhile (fun c => !(c = '"')) = v :=
    takeWhile_append_stop v [] harg1 harg2
  rw [matchScala_at_zero]
  rw [show ((' ' :: ('"' :: (v ++ ['"']))).takeWhile isWsp) = [' '] from rfl]
  simp only [List.length_cons, List.length_nil, List.drop_succ_cons, List.drop_zero]
  rw [hbody]
  have h0 : 0 < v.length := List.length_pos.mpr hne
  have h1 : v.length < (v ++ ['"']).length := by simp
  rw [if_pos (by simp [h0, h1])]
  simp only [Option.some.injEq, Prod.mk.injEq, Span.mk.injEq]
  norm_num

theorem matchScala_ident (c : Char) (cs : Str) (hc : isIdentStart c = true)
    (hcs : ∀ x ∈ cs, isIdentChar x = true) :
    matchScalaVersionAt (str "scalaVersion := " ++ (c :: cs)) 0
      = some (⟨16, 16 + 1 + cs.length⟩, c :: cs) := by
  rw [matchScala_at_zero]
  rw [show ((' ' :: (c :: cs)).takeWhile isWsp) = [' '] from by
    rw [List.takeWhile_cons_of_pos (by decide),
      List.takeWhile_cons_of_neg (by simp [identStart_not_wsp hc])]]
  simp only [List.length_cons, List.length_nil, List.drop_succ_cons, List.drop_zero]
  split
  · rename_i t4 r heq
    obtain ⟨rfl, rfl⟩ : c = '"' ∧ cs = r := by
      injection heq with h1 h2
      exact ⟨h1, h2⟩
    exact absurd hc (by decide)
  · rename_i t4 c' r hx heq
    obtain ⟨h1, h2⟩ : c' = c ∧ r = cs := by
      injection heq with ha hb
      exact ⟨ha.symm, hb.symm⟩
    subst h1
    subst h2
    rw [if_pos hc, takeWhile_all _ hcs]
  · rename_i t4 heq
    exact absurd heq (by simp)

theorem matchScala_dotted (c : Char) (cs b : Str) (hc : isIdentStart c = true)
    (hcs : ∀ x ∈ cs, isIdentChar x = true) :
    matchScalaVersionAt (str "scalaVersion := " ++ (c :: (cs ++ '.' :: b))) 0
      = some (⟨16, 16 + 1 + cs.length⟩, c :: cs) := by
  rw [matchScala_at_zero]
  rw [show ((' ' :: (c :: (cs ++ '.' :: b))).takeWhile isWsp) = [' '] from by
    rw [List.takeWhile_cons_of_pos (by decide),
      List.takeWhile_cons_of_neg (by simp [identStart_not_wsp hc])]]
  simp only [List.length_cons, List.length_nil, List.drop_succ_cons, List.drop_zero]
  split
  · rename_i t4 r heq
    have h1 : c = '"' := (List.cons_eq_cons.mp heq).1
    subst h1
    exact absurd hc (by decide)
  · rename_i t4 c' r hx heq
    obtain ⟨h1, h2⟩ : c' = c ∧ r = cs ++ '.' :: b := by
      obtain ⟨ha, hb⟩ := List.cons_eq_cons.mp heq
      exact ⟨ha.symm, hb.symm⟩
    subst h1
    subst h2
    have htw : (cs ++ '.' :: b).takeWhile isIdentChar = cs :=
      takeWhile_append_stop cs b hcs (by decide)
    rw [if_pos hc, htw]
  · rename_i t4 heq
    exact absurd heq (by simp)

theorem findScalaMatch_of_match_zero {s : Str} {r : Span × Str}
    (h : matchScalaVersionAt s 0 = some r) : findScalaMatch s = some r := by
  show (match matchScalaVersionAt s 0 with
    | some r => some r
    | none => scanFrom s s.length 1) = some r
  rw [h]

theorem dropWhile_all_neg {p : Char → Bool} :
    ∀ l : Str, (∀ x ∈ l, p x = false) → l.dropWhile p = l
  | [], _ => rfl
  | a :: l, h => List.dropWhile_cons_of_neg (by simp [h a (by simp)])

theorem trimQuotes_quoted (v : Str) (hq : ∀ c ∈ v, ¬ c = '"') :
    trimQuotes ('"' :: (v ++ ['"'])) = v := by
  unfold trimQuotes
  rw [List.dropWhile_cons_of_pos (by decide)]
  cases v with
  | nil => rfl
  | cons a v' =>
    have ha : ¬ (a = '"') := hq a (by simp)
    rw [List.cons_append]
    rw [show List.dropWhile (fun c => decide (c = '"')) (a :: (v' ++ ['"']))
        = a :: (v' ++ ['"']) from List.dropWhile_cons_of_neg (by simpa using ha)]
    rw [show (a :: (v' ++ ['"'])).reverse = '"' :: (a :: v').reverse from by simp]
    rw [List.dropWhile_cons_of_pos (by decide)]
    rw [dropWhile_all_neg _ (fun x hx => by
      simp only [decide_eq_false_iff_not]
      exact hq x (List.mem_reverse.mp hx))]
    simp

theorem getLast_quoted (v : Str) : ('"' :: (v ++ ['"'])).getLast? = some '"' := by
  rw [show '"' :: (v ++ ['"']) = ('"' :: v) ++ ['"'] from by simp]
  exact List.getLast?_concat _

/-- Counterexample to claim C9 as stated: with a symbol table defining
only the final segment `scala`, the claim resolves
`scalaVersion := Versions.scala` through that final segment and
synthesizes a record with version 3.4.2, but the code captures only the
leading identifier `Versions`, looks that up, misses, and synthesizes
nothing. -/
theorem claim9_counterexample :
    (fun n => if n = str "scala" then
        some (str "3.4.2", (⟨str "build.sbt", ⟨0, 7⟩⟩ : Location)) else none)
      (str "scala") = some (str "3.4.2", ⟨str "build.sbt", ⟨0, 7⟩⟩)
    ∧ getScalaVersionFromBuildSbt (str "build.sbt")
        (str "scalaVersion := Versions.scala")
        (fun n => if n = str "scala" then
          some (str "3.4.2", ⟨str "build.sbt", ⟨0, 7⟩⟩) else none) = none :=
  ⟨by decide, by decide⟩

/-- Claim C9 (amended): the language-version routine resolves a literal
string directly and a bare identifier by exact symbol-table lookup; a
dotted expression is resolved by capturing and looking up its leading
identifier segment only (not its final segment), so it fails unless the
leading segment itself is defined; on success it synthesizes exactly one
record with organization `org.scala-lang`, artifact `scala3-library_3`
when the resolved major version is 3 and `scala-library` otherwise, and
exactly the resolved version. -/
theorem claim9_language_version_resolution :
    (∀ (source : Str) (val_defs : Str → Option (Str × Location)) (v : Str),
        v ≠ [] → (∀ c ∈ v, ¬ c = '"') →
        findScalaVersion source
            (str "scalaVersion := " ++ ('"' :: (v ++ ['"']))) val_defs
          = some (Version.new v, ⟨source, ⟨16, 16 + v.length + 2⟩⟩))
    ∧ (∀ (source : Str) (val_defs : Str → Option (Str × Location))
        (c : Char) (cs : Str),
        isIdentStart c = true → (∀ x ∈ cs, isIdentChar x = true) →
        findScalaVersion source (str "scalaVersion := " ++ (c :: cs)) val_defs
          = match val_defs (c :: cs) with
            | some p => some (Version.new p.1, p.2)
            | none => none)
    ∧ (∀ (source : Str) (val_defs : Str → Option (Str × Location))
        (c : Char) (cs b : Str),
        isIdentStart c = true → (∀ x ∈ cs, isIdentChar x = true) →
        findScalaVersion source
            (str "scalaVersion := " ++ (c :: (cs ++ '.' :: b))) val_defs
          = match val_defs (c :: cs) with
            | some p => some (Version.new p.1, p.2)
            | none => none)
    ∧ (∀ (source code : Str) (val_defs : Str → Option (Str × Location)),
        getScalaVersionFromBuildSbt source code val_defs
          = (findScalaVersion source code val_defs).map
              (fun p => ⟨str "org.scala-lang",
                if p.1.major = some 3 then str "scala3-library_3"
                else str "scala-library", p.1, p.2⟩)) := by
  refine ⟨?_, ?_, ?_, ?_⟩
  · intro source val_defs v hne hq
    unfold findScalaVersion
    rw [findScalaMatch_of_match_zero (matchScala_literal v hne hq)]
    simp only []
    rw [if_pos ⟨rfl, getLast_quoted v⟩]
    rw [trimQuotes_quoted v hq]
  · intro source val_defs c cs hc hcs
    unfold findScalaVersion
    rw [findScalaMatch_of_match_zero (matchScala_ident c cs hc hcs)]
    simp only []
    rw [if_neg (fun hpair => identStart_ne_quote hc (by
      simpa using hpair.1))]
    cases hv : val_defs (c :: cs) with
    | none => rfl
    | some p => obtain ⟨value, location⟩ := p; rfl
  · intro source val_defs c cs b hc hcs
    unfold findScalaVersion
    rw [findScalaMatch_of_match_zero (matchScala_dotted c cs b hc hcs)]
    simp only []
    rw [if_neg (fun hpair => identStart_ne_quote hc (by
      simpa using hpair.1))]
    cases hv : val_defs (c :: cs) with
    | none => rfl
    | some p => obtain ⟨value, location⟩ := p; rfl
  · intro source code val_defs
    unfold getScalaVersionFromBuildSbt
    cases h : findScalaVersion source code val_defs with
    | none => rfl
    | some p =>
      obtain ⟨v, loc⟩ := p
      rfl

/-- Witness for C9 (amended): the bare-identifier rule applied at the
concrete assignment of the repository test, resolving through the symbol
table. -/
theorem claim9_witness :
    findScalaVersion (str "e") (str "scalaVersion := " ++ ('s' :: str "cala3"))
      (fun n => if n = str "scala3" then
        some (str "3.4.2", (⟨str "e", ⟨22, 29⟩⟩ : Location)) else none)
      = some (Version.new (str "3.4.2"), ⟨str "e", ⟨22, 29⟩⟩) :=
  (claim9_language_version_resolution.2.1 (str "e")
    (fun n => if n = str "scala3" then
      some (str "3.4.2", (⟨str "e", ⟨22, 29⟩⟩ : Location)) else none)
    's' (str "cala3") (by decide) (by decide)).trans (by decide)
